import Mathlib

/-!
Shallow embedding of the KakaoTalk transcript parser of this repository
(src/services/chatParser.ts).  The source file contains two variant
implementations of `parseChat`; we embed both, as `parseChatA` (the first
variant, lines 1-107) and `parseChatB` (the second variant, lines 108-207).

Modelling conventions:
* JS strings are modelled as `List Char` (`Str`); transcript lines never
  contain a newline because they arise from splitting on newline characters.
* The three regular expressions of the source are embedded as concrete
  matching functions.  The patterns use only literals, digit classes with
  bounded repetition followed by non-digit literals, a two-way alternation of
  disjoint literals, and one non-greedy wildcard, so JS backtracking
  semantics coincide with the deterministic matchers written here (bounded
  greedy digit repetitions followed by a non-digit literal succeed exactly
  when the maximal digit run has an admissible length; the non-greedy
  speaker group stops at the first occurrence of the separator).
* `Math.random()` item ids are omitted: the specification states explicitly
  that identity tokens carry no ordering or equality semantics.
* The mutable `lastMessage` object reference is modelled as the index of the
  referenced item in the emitted list (the source only ever aliases the most
  recently pushed message object, and mutates it in place when absorbing a
  continuation line).
* `new Date(y, m, d).getDay()` is modelled by `jsGetDay`, implementing the
  ECMAScript MakeDay/WeekDay computation (two-digit-year adjustment, month
  rollover with floored division, day offsets, day-of-week of the proleptic
  Gregorian calendar).  The `isNaN(date.getTime())` fallback of the source is
  unreachable for matched four-digit years and is therefore not modelled.
-/

set_option maxRecDepth 8000

namespace ChatParser

/-- Strings are modelled as lists of characters. -/
abbrev Str := List Char

/-- ECMAScript WhiteSpace and LineTerminator characters (the set used by
both `String.prototype.trim` and the regex class matching a whitespace
character). -/
def isJsWs (c : Char) : Bool :=
  c = ' ' || c = '\t' || c = '\n' || c = '\r' || c = '\x0b' || c = '\x0c' ||
  c = '\u00A0' || c = '\uFEFF' || c = '\u1680' ||
  ('\u2000' ≤ c && c ≤ '\u200A') ||
  c = '\u2028' || c = '\u2029' || c = '\u202F' || c = '\u205F' || c = '\u3000'

/-- JS `txt.split('\n')`: split a character list at newline characters.
Always returns at least one (possibly empty) line. -/
def splitLines : Str → List Str
  | [] => [[]]
  | c :: cs =>
    if c = '\n' then [] :: splitLines cs
    else
      match splitLines cs with
      | [] => [[c]]
      | l :: ls => (c :: l) :: ls

/-- JS `line.trim()`. -/
def trimChars (s : Str) : Str :=
  ((s.dropWhile isJsWs).reverse.dropWhile isJsWs).reverse

/-- The line list the parser iterates over:
`txtContent.split('\n').map(line => line.trim())`. -/
def linesOf (txt : String) : List Str := (splitLines txt.data).map trimChars

/-- Match a literal character sequence at the start of the input, returning
the remainder. -/
def expectStr : Str → Str → Option Str
  | [], s => some s
  | _ :: _, [] => none
  | p :: ps, c :: cs => if c = p then expectStr ps cs else none

/-- Exactly `n` decimal digits at the start of the input. -/
def takeDigits : Nat → Str → Option (Str × Str)
  | 0, s => some ([], s)
  | _ + 1, [] => none
  | n + 1, c :: cs =>
    if c.isDigit then
      match takeDigits n cs with
      | some (d, r) => some (c :: d, r)
      | none => none
    else none

/-- The maximal run of decimal digits at the start of the input. -/
def digitRun : Str → Str × Str
  | [] => ([], [])
  | c :: cs =>
    if c.isDigit then
      let p := digitRun cs
      (c :: p.1, p.2)
    else ([], c :: cs)

/-- A digit group of one or two digits followed (in every use site of the
source patterns) by a non-digit literal: the greedy backtracking semantics
coincide with accepting the maximal digit run when its length is 1 or 2. -/
def num12 (s : Str) : Option (Str × Str) :=
  let p := digitRun s
  if 1 ≤ p.1.length ∧ p.1.length ≤ 2 then some p else none

/-- The morning marker word of the timestamp grammar. -/
def amChars : Str := "오전".data

/-- The afternoon marker word of the timestamp grammar. -/
def pmChars : Str := "오후".data

/-- The two-way alternation of the am/pm marker words. -/
def matchAmPm (s : Str) : Option (Str × Str) :=
  match expectStr amChars s with
  | some r => some (amChars, r)
  | none =>
    match expectStr pmChars s with
    | some r => some (pmChars, r)
    | none => none

/-- The capture groups of a full-timestamp match. -/
structure TsParts where
  year : Str
  month : Str
  day : Str
  ampm : Str
  hour : Str
  minute : Str
deriving DecidableEq

/-- The text matched by the full timestamp pattern with the given groups. -/
def tsChars (p : TsParts) : Str :=
  p.year ++ '년' :: ' ' :: (p.month ++ '월' :: ' ' :: (p.day ++ '일' :: ' ' ::
    (p.ampm ++ ' ' :: (p.hour ++ ':' :: p.minute))))

/-- Anchored match of the full timestamp pattern (year, month, day, am/pm
marker, hour, two-digit minute), returning the groups and the remainder of
the input. -/
def matchTs (s : Str) : Option (TsParts × Str) :=
  match takeDigits 4 s with
  | none => none
  | some (y, s) =>
    match expectStr ('년' :: [' ']) s with
    | none => none
    | some s =>
      match num12 s with
      | none => none
      | some (mo, s) =>
        match expectStr ('월' :: [' ']) s with
        | none => none
        | some s =>
          match num12 s with
          | none => none
          | some (d, s) =>
            match expectStr ('일' :: [' ']) s with
            | none => none
            | some s =>
              match matchAmPm s with
              | none => none
              | some (ap, s) =>
                match expectStr [' '] s with
                | none => none
                | some s =>
                  match num12 s with
                  | none => none
                  | some (h, s) =>
                    match expectStr [':'] s with
                    | none => none
                    | some s =>
                      match takeDigits 2 s with
                      | none => none
                      | some (mi, r) => some (⟨y, mo, d, ap, h, mi⟩, r)

/-- The text matched by the date-only pattern with the given groups. -/
def datePartChars (y mo d : Str) : Str :=
  y ++ '년' :: ' ' :: (mo ++ '월' :: ' ' :: (d ++ ['일']))

/-- Anchored match of the date-only pattern (year, month, day), returning
the groups and the remainder of the input. -/
def anchoredDate (s : Str) : Option (Str × Str × Str × Str) :=
  match takeDigits 4 s with
  | none => none
  | some (y, s) =>
    match expectStr ('년' :: [' ']) s with
    | none => none
    | some s =>
      match num12 s with
      | none => none
      | some (mo, s) =>
        match expectStr ('월' :: [' ']) s with
        | none => none
        | some s =>
          match num12 s with
          | none => none
          | some (d, s) =>
            match expectStr ['일'] s with
            | none => none
            | some r => some (y, mo, d, r)

/-- Unanchored search for the date-only pattern: the leftmost match wins,
as for a JS regex without an anchor. -/
def searchDate : Str → Option (Str × Str × Str)
  | [] => none
  | c :: cs =>
    match anchoredDate (c :: cs) with
    | some (y, mo, d, _) => some (y, mo, d)
    | none => searchDate cs

/-- Anchored match of the display-time pattern: am/pm marker, one JS
whitespace character, an hour of one or two digits, a colon, and a
two-digit minute.  Returns the two capture groups. -/
def anchoredDisplay (s : Str) : Option (Str × Str) :=
  match matchAmPm s with
  | none => none
  | some (ap, s) =>
    match s with
    | [] => none
    | c :: cs =>
      if isJsWs c then
        match num12 cs with
        | none => none
        | some (h, s) =>
          match expectStr [':'] s with
          | none => none
          | some s =>
            match takeDigits 2 s with
            | none => none
            | some (mi, _) => some (ap, h ++ ':' :: mi)
      else none

/-- Unanchored search for the display-time pattern. -/
def searchDisplay : Str → Option (Str × Str)
  | [] => none
  | c :: cs =>
    match anchoredDisplay (c :: cs) with
    | some r => some r
    | none => searchDisplay cs

/-- Source `parseTimestampToDisplayTime`: extract the am/pm marker and the
hour-minute group from a timestamp string, joined by a single space, or the
empty string when the pattern does not occur. -/
def parseTimestampToDisplayTime (ts : Str) : Str :=
  match searchDisplay ts with
  | some (ap, hm) => ap ++ ' ' :: hm
  | none => []

/-- JS `parseInt` on a string of decimal digits. -/
def digitsToNat (s : Str) : Nat := s.foldl (fun n c => 10 * n + (c.toNat - 48)) 0

/-- Day number (relative to 1970-01-01) of the first day of month `m`
(1-12) of proleptic-Gregorian year `y`. -/
def daysFromCivil (y m : Int) : Int :=
  let y' := if m ≤ 2 then y - 1 else y
  let era := Int.fdiv y' 400
  let yoe := y' - era * 400
  let mp := Int.fmod (m + 9) 12
  let doy := Int.fdiv (153 * mp + 2) 5
  let doe := yoe * 365 + Int.fdiv yoe 4 - Int.fdiv yoe 100 + doy
  era * 146097 + doe - 719468

/-- ECMAScript `new Date(year, month - 1, day).getDay()` for the numeric
arguments produced by the source (the `- 1` of the source is folded in):
two-digit years denote 1900-1999, out-of-range months and days roll over. -/
def jsGetDay (year month day : Nat) : Nat :=
  let y0 : Int := if year ≤ 99 then 1900 + (year : Int) else (year : Int)
  let m0 : Int := (month : Int) - 1
  let y1 : Int := y0 + Int.fdiv m0 12
  let m1 : Int := Int.fmod m0 12
  let t : Int := daysFromCivil y1 (m1 + 1) + ((day : Int) - 1)
  (Int.fmod (t + 4) 7).toNat

/-- Source `KOREAN_DAYS`, indexed 0 (Sunday) through 6 (Saturday). -/
def KOREAN_DAYS : List Str :=
  ["일".data, "월".data, "화".data, "수".data, "목".data, "금".data, "토".data]

/-- Source `formatDateWithDay`: search for the date-only pattern, and append
the weekday word computed from the parsed year, month and day; return the
input unchanged when the pattern does not occur. -/
def formatDateWithDay (dateStr : Str) : Str :=
  match searchDate dateStr with
  | none => dateStr
  | some (y, mo, d) =>
    dateStr ++ ' ' ::
      (KOREAN_DAYS.getD (jsGetDay (digitsToNat y) (digitsToNat mo) (digitsToNat d)) []
        ++ "요일".data)

/-- The date text a DateMarker payload denotes: the leftmost date-only
match inside it (the payload itself when no date occurs). -/
def logicalDate (s : Str) : Str :=
  match searchDate s with
  | some (y, mo, d) => datePartChars y mo d
  | none => s

/-- The deduplication key of a DateMarker payload: its logical date,
weekday-formatted (this is the value the parser stores in `lastDate`). -/
def dateKey (s : Str) : Str := formatDateWithDay (logicalDate s)

/-- The separator between the speaker group and the message content. -/
def sepChars : Str := ' ' :: ':' :: [' ']

/-- ECMAScript LineTerminator characters: LF, CR, U+2028 (line separator)
and U+2029 (paragraph separator).  The regex wildcard of the source cannot
match any of them. -/
def isLineTerm (c : Char) : Bool :=
  c = '\n' || c = '\r' || c = '\u2028' || c = '\u2029'

/-- Scan for the first occurrence of the separator; `acc` is the (non-empty)
speaker text read so far.  The non-greedy speaker group of the source cannot
match a line terminator, so the scan aborts on one. -/
def splitSpeakerGo (acc : Str) : Str → Option (Str × Str)
  | [] => none
  | c :: cs =>
    match expectStr sepChars (c :: cs) with
    | some r => some (acc, r)
    | none => if isLineTerm c then none else splitSpeakerGo (acc ++ [c]) cs

/-- The non-greedy speaker group followed by the separator: the speaker is
the shortest non-empty text, free of line terminators, after which the
separator occurs. -/
def splitSpeaker : Str → Option (Str × Str)
  | [] => none
  | c :: cs => if isLineTerm c then none else splitSpeakerGo [c] cs

/-- The capture groups of a message-line match. -/
structure MsgMatch where
  fullTimestamp : Str
  userName : Str
  content : Str
deriving DecidableEq

/-- Anchored match of the message-line pattern: full timestamp, a comma and
space, the non-greedy speaker group, the separator, and the rest of the line
as content. -/
def matchMessage (line : Str) : Option MsgMatch :=
  match matchTs line with
  | none => none
  | some (p, rest) =>
    match expectStr (',' :: [' ']) rest with
    | none => none
    | some rest2 =>
      match splitSpeaker rest2 with
      | none => none
      | some (sp, content) => some ⟨tsChars p, sp, content⟩

/-- Whether a (trimmed) line matches the date-only header pattern, i.e. the
full timestamp pattern with nothing else on the line. -/
def isDateHeader (line : Str) : Bool :=
  match matchTs line with
  | some (_, []) => true
  | _ => false

/-- The deleted-message sentinel string. -/
def deletedMsg : Str := "메시지가 삭제되었습니다.".data

/-- The placeholder title used when the first line is empty. -/
def defaultTitle : Str := "카카오톡 대화".data

/-- Display items of variant A (its message records carry the raw
`fullTimestamp` in addition to the display timestamp). -/
inductive ItemA where
  | message (user content timestamp fullTimestamp : Str) (isContinuation : Bool)
  | date (date : Str)
  | system (content : Str)
deriving DecidableEq

/-- Display items of variant B. -/
inductive ItemB where
  | message (user content timestamp : Str) (isContinuation : Bool)
  | date (date : Str)
  | system (content : Str)
deriving DecidableEq

/-- Loop state of variant A: the emitted items, the speaker set in insertion
order, the index of the current message (JS `lastMessage`, an alias of the
most recently pushed message object), and `lastDate`. -/
structure StateA where
  messages : List ItemA
  users : List Str
  lastMessage : Option Nat
  lastDate : Option Str
deriving DecidableEq

/-- Loop state of variant B. -/
structure StateB where
  messages : List ItemB
  users : List Str
  lastMessage : Option Nat
  lastDate : Option Str
deriving DecidableEq

/-- Initial state of the parsing loop. -/
def initA : StateA := ⟨[], [], none, none⟩

/-- Initial state of the parsing loop of variant B. -/
def initB : StateB := ⟨[], [], none, none⟩

/-- JS insertion-ordered `Set.add`. -/
def addUser (us : List Str) (u : Str) : List Str :=
  if u ∈ us then us else us ++ [u]

/-- Variant A, date-only header branch (source lines 47-64): re-extract the
date part of the matched line, format it with the weekday; when the result
differs from `lastDate`, push a DateMarker whose payload is the raw line,
update `lastDate` and reset the current message; otherwise do nothing. -/
def dateBranchA (s : StateA) (line : Str) : StateA :=
  match searchDate line with
  | some (y, mo, d) =>
    let formattedDate := formatDateWithDay (datePartChars y mo d)
    if s.lastDate = some formattedDate then s
    else
      { s with
          messages := s.messages ++ [ItemA.date line],
          lastDate := some formattedDate,
          lastMessage := none }
  | none => s

/-- Variant A, the date emission inside the message branch (source lines
69-81): when the message's own date, weekday-formatted, differs from
`lastDate`, push a DateMarker whose payload is the full timestamp and
update `lastDate` (the current message is not reset here). -/
def msgDateA (s : StateA) (ft : Str) : StateA :=
  match anchoredDate ft with
  | some (y, mo, d, _) =>
    let fd := formatDateWithDay (datePartChars y mo d)
    if s.lastDate = some fd then s
    else { s with lastDate := some fd, messages := s.messages ++ [ItemA.date ft] }
  | none => s

/-- The item the JS variable `lastMessage` aliases, when any: the entry of
the emitted list at the tracked index. -/
def currentA (s : StateA) : Option ItemA :=
  match s.lastMessage with
  | some i => s.messages[i]?
  | none => none

/-- The continuation flag of variant A (source lines 84-87): the current
message exists, is a message, and has the same trimmed speaker and the same
display timestamp as the line being processed. -/
def contFlagA (s : StateA) (m : MsgMatch) : Bool :=
  match currentA s with
  | some (ItemA.message u _ t _ _) =>
    if u = trimChars m.userName ∧ t = parseTimestampToDisplayTime m.fullTimestamp then true
    else false
  | _ => false

/-- Variant A, message branch (source lines 66-101): maybe emit a
DateMarker, compute the display timestamp and the continuation flag from
the current message of the incoming state, push the new message, record the
speaker, and make the new message current. -/
def msgBranchA (s : StateA) (m : MsgMatch) : StateA :=
  let s1 := msgDateA s m.fullTimestamp
  { s1 with
      messages :=
        s1.messages ++
          [ItemA.message (trimChars m.userName) (trimChars m.content)
            (parseTimestampToDisplayTime m.fullTimestamp) m.fullTimestamp (contFlagA s m)],
      users := addUser s1.users (trimChars m.userName),
      lastMessage := some s1.messages.length }

/-- Variant A, continuation fallback (source lines 102-104): append the line
to the current message's content, separated by a newline; do nothing when
there is no current message. -/
def fallbackA (s : StateA) (line : Str) : StateA :=
  match s.lastMessage with
  | some i =>
    match s.messages[i]? with
    | some (ItemA.message u c t ft ic) =>
      { s with messages := s.messages.set i (ItemA.message u (c ++ '\n' :: line) t ft ic) }
    | _ => s
  | none => s

/-- One iteration of variant A's loop body on a (trimmed) line. -/
def stepA (s : StateA) (line : Str) : StateA :=
  if line = [] then s
  else if line = deletedMsg then
    { s with messages := s.messages ++ [ItemA.system deletedMsg], lastMessage := none }
  else
    match matchTs line with
    | some (_, []) => dateBranchA s line
    | _ =>
      match matchMessage line with
      | some m => msgBranchA s m
      | none => fallbackA s line

/-- Result record of variant A. -/
structure ParseResultA where
  messages : List ItemA
  users : List Str
  title : Str
deriving DecidableEq

/-- Variant A of source `parseChat` (lines 20-107): split into trimmed
lines, take the title from the first line (placeholder when empty), skip the
three header lines, and fold the loop body over the rest. -/
def parseChatA (txt : String) : ParseResultA :=
  let lines := linesOf txt
  let title :=
    match lines with
    | [] => defaultTitle
    | l :: _ => if l = [] then defaultTitle else l
  let fin := (lines.drop 3).foldl stepA initA
  ⟨fin.messages, fin.users, title⟩

/-- Variant B, date-only header branch (source lines 154-167): its pattern
captures the date part directly; the DateMarker payload is the
weekday-formatted date. -/
def dateBranchB (s : StateB) (p : TsParts) : StateB :=
  let formattedDate := formatDateWithDay (datePartChars p.year p.month p.day)
  if s.lastDate = some formattedDate then s
  else
    { s with
        messages := s.messages ++ [ItemB.date formattedDate],
        lastDate := some formattedDate,
        lastMessage := none }

/-- Variant B, date emission inside the message branch (source lines
172-181): the DateMarker payload is the updated `lastDate`, i.e. the
weekday-formatted date. -/
def msgDateB (s : StateB) (ft : Str) : StateB :=
  match anchoredDate ft with
  | some (y, mo, d, _) =>
    let fd := formatDateWithDay (datePartChars y mo d)
    if s.lastDate = some fd then s
    else { s with lastDate := some fd, messages := s.messages ++ [ItemB.date fd] }
  | none => s

/-- The item the JS variable `lastMessage` of variant B aliases, when any. -/
def currentB (s : StateB) : Option ItemB :=
  match s.lastMessage with
  | some i => s.messages[i]?
  | none => none

/-- The continuation flag of variant B (source lines 184-187). -/
def contFlagB (s : StateB) (m : MsgMatch) : Bool :=
  match currentB s with
  | some (ItemB.message u _ t _) =>
    if u = trimChars m.userName ∧ t = parseTimestampToDisplayTime m.fullTimestamp then true
    else false
  | _ => false

/-- Variant B, message branch (source lines 169-200). -/
def msgBranchB (s : StateB) (m : MsgMatch) : StateB :=
  let s1 := msgDateB s m.fullTimestamp
  { s1 with
      messages :=
        s1.messages ++
          [ItemB.message (trimChars m.userName) (trimChars m.content)
            (parseTimestampToDisplayTime m.fullTimestamp) (contFlagB s m)],
      users := addUser s1.users (trimChars m.userName),
      lastMessage := some s1.messages.length }

/-- Variant B, continuation fallback (source lines 201-203). -/
def fallbackB (s : StateB) (line : Str) : StateB :=
  match s.lastMessage with
  | some i =>
    match s.messages[i]? with
    | some (ItemB.message u c t ic) =>
      { s with messages := s.messages.set i (ItemB.message u (c ++ '\n' :: line) t ic) }
    | _ => s
  | none => s

/-- One iteration of variant B's loop body on a (trimmed) line. -/
def stepB (s : StateB) (line : Str) : StateB :=
  if line = [] then s
  else if line = deletedMsg then
    { s with messages := s.messages ++ [ItemB.system deletedMsg], lastMessage := none }
  else
    match matchTs line with
    | some (p, []) => dateBranchB s p
    | _ =>
      match matchMessage line with
      | some m => msgBranchB s m
      | none => fallbackB s line

/-- Result record of variant B. -/
structure ParseResultB where
  messages : List ItemB
  users : List Str
  title : Str
deriving DecidableEq

/-- Variant B of source `parseChat` (lines 127-207). -/
def parseChatB (txt : String) : ParseResultB :=
  let lines := linesOf txt
  let title :=
    match lines with
    | [] => defaultTitle
    | l :: _ => if l = [] then defaultTitle else l
  let fin := (lines.drop 3).foldl stepB initB
  ⟨fin.messages, fin.users, title⟩

/-! ### Basic facts about the embedded matchers -/

/-- All characters of the string are decimal digits. -/
def allDigits (s : Str) : Prop := ∀ c ∈ s, c.isDigit = true

/-- The string is empty or starts with a non-digit. -/
def notDigitHead : Str → Prop
  | [] => True
  | c :: _ => c.isDigit = false

theorem notDigitHead_cons {c : Char} (h : c.isDigit = false) (cs : Str) :
    notDigitHead (c :: cs) := h

theorem expectStr_nil (s : Str) : expectStr [] s = some s := rfl

theorem expectStr_cons_same (c : Char) (ps s : Str) :
    expectStr (c :: ps) (c :: s) = expectStr ps s := by
  simp [expectStr]

theorem expectStr_eq_some {pat s r : Str} (h : expectStr pat s = some r) : s = pat ++ r := by
  induction pat generalizing s with
  | nil =>
    simp only [expectStr, Option.some.injEq] at h
    simpa using h
  | cons p ps ih =>
    cases s with
    | nil => simp [expectStr] at h
    | cons c cs =>
      simp only [expectStr] at h
      split at h
      · next hc => subst hc; simpa using ih h
      · exact absurd h (by simp)

theorem expectStr_self (pat r : Str) : expectStr pat (pat ++ r) = some r := by
  induction pat with
  | nil => rfl
  | cons p ps ih => simpa [expectStr] using ih

theorem takeDigits_eq_some {n : Nat} {s d r : Str} (h : takeDigits n s = some (d, r)) :
    s = d ++ r ∧ d.length = n ∧ allDigits d := by
  induction n generalizing s d with
  | zero =>
    simp only [takeDigits, Option.some.injEq, Prod.mk.injEq] at h
    obtain ⟨hd, hr⟩ := h
    subst hd; subst hr
    exact ⟨rfl, rfl, by simp [allDigits]⟩
  | succ n ih =>
    cases s with
    | nil => simp [takeDigits] at h
    | cons c cs =>
      simp only [takeDigits] at h
      split at h
      · next hdig =>
        rcases e : takeDigits n cs with _ | ⟨d', r'⟩ <;> rw [e] at h
        · simp at h
        · simp only [Option.some.injEq, Prod.mk.injEq] at h
          obtain ⟨hd, hr⟩ := h
          subst hd; subst hr
          obtain ⟨hcs, hlen, hdig'⟩ := ih e
          subst hcs
          refine ⟨rfl, by simp [hlen], ?_⟩
          intro x hx
          rcases List.mem_cons.mp hx with hx | hx
          · subst hx; exact hdig
          · exact hdig' x hx
      · exact absurd h (by simp)

theorem takeDigits_self {d : Str} (hd : allDigits d) (r : Str) :
    takeDigits d.length (d ++ r) = some (d, r) := by
  induction d with
  | nil => rfl
  | cons c cs ih =>
    have hc : c.isDigit = true := hd c (by simp)
    have hcs : allDigits cs := fun x hx => hd x (by simp [hx])
    simp [takeDigits, hc, ih hcs]

theorem digitRun_eq {s d r : Str} (h : digitRun s = (d, r)) :
    s = d ++ r ∧ allDigits d ∧ notDigitHead r := by
  induction s generalizing d r with
  | nil =>
    simp only [digitRun, Prod.mk.injEq] at h
    obtain ⟨hd, hr⟩ := h
    subst hd; subst hr
    exact ⟨rfl, by simp [allDigits], trivial⟩
  | cons c cs ih =>
    rcases e : digitRun cs with ⟨d0, r0⟩
    simp only [digitRun, e] at h
    split at h
    · next hdig =>
      simp only [Prod.mk.injEq] at h
      obtain ⟨hd, hr⟩ := h
      obtain ⟨hcs, hdig', hnd⟩ := ih e
      subst hd; subst hr
      refine ⟨by simp [hcs], ?_, hnd⟩
      intro x hx
      rcases List.mem_cons.mp hx with hx | hx
      · subst hx; exact hdig
      · exact hdig' x hx
    · next hdig =>
      simp only [Prod.mk.injEq] at h
      obtain ⟨hd, hr⟩ := h
      subst hd; subst hr
      exact ⟨rfl, by simp [allDigits], by simpa [notDigitHead] using hdig⟩

theorem digitRun_self {d : Str} (hd : allDigits d) {r : Str} (hr : notDigitHead r) :
    digitRun (d ++ r) = (d, r) := by
  induction d with
  | nil =>
    cases r with
    | nil => rfl
    | cons c cs => simp [digitRun, show c.isDigit = false from hr]
  | cons c cs ih =>
    have hc : c.isDigit = true := hd c (by simp)
    have hcs : allDigits cs := fun x hx => hd x (by simp [hx])
    simp [digitRun, hc, ih hcs]

theorem num12_eq_some {s d r : Str} (h : num12 s = some (d, r)) :
    s = d ++ r ∧ 1 ≤ d.length ∧ d.length ≤ 2 ∧ allDigits d ∧ notDigitHead r := by
  simp only [num12] at h
  split at h
  · next hcond =>
    simp only [Option.some.injEq] at h
    have hd1 : (digitRun s).1 = d := by rw [h]
    have hd2 : (digitRun s).2 = r := by rw [h]
    obtain ⟨hs, hdig, hnd⟩ := @digitRun_eq s d r (by rw [← hd1, ← hd2])
    exact ⟨hs, hd1 ▸ hcond.1, hd1 ▸ hcond.2, hdig, hnd⟩
  · exact absurd h (by simp)

theorem num12_self {d : Str} (hdig : allDigits d) (h1 : 1 ≤ d.length) (h2 : d.length ≤ 2)
    {r : Str} (hr : notDigitHead r) : num12 (d ++ r) = some (d, r) := by
  simp [num12, digitRun_self hdig hr, h1, h2]

theorem amChars_list : amChars = ['오', '전'] := rfl

theorem pmChars_list : pmChars = ['오', '후'] := rfl

theorem matchAmPm_eq_some {s ap r : Str} (h : matchAmPm s = some (ap, r)) :
    s = ap ++ r ∧ (ap = amChars ∨ ap = pmChars) := by
  simp only [matchAmPm] at h
  rcases e1 : expectStr amChars s with _ | r1 <;> rw [e1] at h
  · rcases e2 : expectStr pmChars s with _ | r2 <;> rw [e2] at h
    · simp at h
    · simp only [Option.some.injEq, Prod.mk.injEq] at h
      obtain ⟨hap, hr⟩ := h
      subst hap; subst hr
      exact ⟨expectStr_eq_some e2, Or.inr rfl⟩
  · simp only [Option.some.injEq, Prod.mk.injEq] at h
    obtain ⟨hap, hr⟩ := h
    subst hap; subst hr
    exact ⟨expectStr_eq_some e1, Or.inl rfl⟩

theorem matchAmPm_self {ap : Str} (h : ap = amChars ∨ ap = pmChars) (r : Str) :
    matchAmPm (ap ++ r) = some (ap, r) := by
  rcases h with h | h <;> subst h
  · simp [matchAmPm, expectStr_self]
  · have hne : expectStr amChars (pmChars ++ r) = none := by
      simp [amChars_list, pmChars_list, expectStr]
    simp [matchAmPm, hne, expectStr_self]

/-- Well-formedness of the capture groups of a full-timestamp match: the
shapes forced by the pattern. -/
def WFts (p : TsParts) : Prop :=
  p.year.length = 4 ∧ allDigits p.year ∧
  1 ≤ p.month.length ∧ p.month.length ≤ 2 ∧ allDigits p.month ∧
  1 ≤ p.day.length ∧ p.day.length ≤ 2 ∧ allDigits p.day ∧
  (p.ampm = amChars ∨ p.ampm = pmChars) ∧
  1 ≤ p.hour.length ∧ p.hour.length ≤ 2 ∧ allDigits p.hour ∧
  p.minute.length = 2 ∧ allDigits p.minute

theorem takeDigits_go {n : Nat} {d : Str} (hlen : d.length = n) (hd : allDigits d) (r : Str) :
    takeDigits n (d ++ r) = some (d, r) := by
  subst hlen; exact takeDigits_self hd r

theorem matchTs_eq_some {s : Str} {p : TsParts} {r : Str} (h : matchTs s = some (p, r)) :
    s = tsChars p ++ r ∧ WFts p := by
  rcases e1 : takeDigits 4 s with _ | ⟨y, s1⟩
  · simp [matchTs, e1] at h
  simp only [matchTs, e1] at h
  rcases e2 : expectStr ('년' :: [' ']) s1 with _ | s2
  · simp [e2] at h
  simp only [e2] at h
  rcases e3 : num12 s2 with _ | ⟨mo, s3⟩
  · simp [e3] at h
  simp only [e3] at h
  rcases e4 : expectStr ('월' :: [' ']) s3 with _ | s4
  · simp [e4] at h
  simp only [e4] at h
  rcases e5 : num12 s4 with _ | ⟨d, s5⟩
  · simp [e5] at h
  simp only [e5] at h
  rcases e6 : expectStr ('일' :: [' ']) s5 with _ | s6
  · simp [e6] at h
  simp only [e6] at h
  rcases e7 : matchAmPm s6 with _ | ⟨ap, s7⟩
  · simp [e7] at h
  simp only [e7] at h
  rcases e8 : expectStr [' '] s7 with _ | s8
  · simp [e8] at h
  simp only [e8] at h
  rcases e9 : num12 s8 with _ | ⟨hh, s9⟩
  · simp [e9] at h
  simp only [e9] at h
  rcases e10 : expectStr [':'] s9 with _ | s10
  · simp [e10] at h
  simp only [e10] at h
  rcases e11 : takeDigits 2 s10 with _ | ⟨mi, r'⟩
  · simp [e11] at h
  simp only [e11, Option.some.injEq, Prod.mk.injEq] at h
  obtain ⟨hp, hr⟩ := h
  subst hp
  subst hr
  obtain ⟨hs, hy4, hyd⟩ := takeDigits_eq_some e1
  have hs1 := expectStr_eq_some e2
  obtain ⟨hs2, hm1, hm2, hmd, -⟩ := num12_eq_some e3
  have hs3 := expectStr_eq_some e4
  obtain ⟨hs4, hd1, hd2, hdd, -⟩ := num12_eq_some e5
  have hs5 := expectStr_eq_some e6
  obtain ⟨hs6, hap⟩ := matchAmPm_eq_some e7
  have hs7 := expectStr_eq_some e8
  obtain ⟨hs8, hh1, hh2, hhd, -⟩ := num12_eq_some e9
  have hs9 := expectStr_eq_some e10
  obtain ⟨hs10, hmi2, hmid⟩ := takeDigits_eq_some e11
  constructor
  · subst hs; subst hs1; subst hs2; subst hs3; subst hs4; subst hs5
    subst hs6; subst hs7; subst hs8; subst hs9; subst hs10
    simp [tsChars]
  · exact ⟨hy4, hyd, hm1, hm2, hmd, hd1, hd2, hdd, hap, hh1, hh2, hhd, hmi2, hmid⟩

theorem notDigitHead_wol (cs : Str) : notDigitHead ('월' :: cs) :=
  (by decide : ('월').isDigit = false)

theorem notDigitHead_il (cs : Str) : notDigitHead ('일' :: cs) :=
  (by decide : ('일').isDigit = false)

theorem notDigitHead_colon (cs : Str) : notDigitHead (':' :: cs) :=
  (by decide : (':').isDigit = false)

theorem anchoredDate_ts {p : TsParts} (hw : WFts p) (r : Str) :
    anchoredDate (tsChars p ++ r) =
      some (p.year, p.month, p.day,
        ' ' :: ((p.ampm ++ ' ' :: (p.hour ++ ':' :: p.minute)) ++ r)) := by
  obtain ⟨hy4, hyd, hm1, hm2, hmd, hd1, hd2, hdd, hap, hh1, hh2, hhd, hmi2, hmid⟩ := hw
  have hdecomp : tsChars p ++ r =
      p.year ++ '년' :: ' ' :: (p.month ++ '월' :: ' ' :: (p.day ++ '일' ::
        ' ' :: ((p.ampm ++ ' ' :: (p.hour ++ ':' :: p.minute)) ++ r))) := by
    simp [tsChars]
  rw [hdecomp]
  simp only [anchoredDate, takeDigits_go hy4 hyd, expectStr_cons_same, expectStr_nil,
    num12_self hmd hm1 hm2 (notDigitHead_wol _),
    num12_self hdd hd1 hd2 (notDigitHead_il _)]

theorem searchDate_of_anchored {s : Str} {y mo d r : Str}
    (h : anchoredDate s = some (y, mo, d, r)) : searchDate s = some (y, mo, d) := by
  cases s with
  | nil => simp [anchoredDate, takeDigits] at h
  | cons c cs => simp [searchDate, h]

theorem searchDate_ts {p : TsParts} (hw : WFts p) (r : Str) :
    searchDate (tsChars p ++ r) = some (p.year, p.month, p.day) :=
  searchDate_of_anchored (anchoredDate_ts hw r)

theorem tsChars_append_nil (p : TsParts) : tsChars p ++ ([] : Str) = tsChars p := by
  simp

theorem logicalDate_ts {p : TsParts} (hw : WFts p) :
    logicalDate (tsChars p) = datePartChars p.year p.month p.day := by
  have h := searchDate_ts hw []
  rw [tsChars_append_nil] at h
  simp [logicalDate, h]

theorem dateKey_ts {p : TsParts} (hw : WFts p) :
    dateKey (tsChars p) = formatDateWithDay (datePartChars p.year p.month p.day) := by
  rw [dateKey, logicalDate_ts hw]

theorem takeDigits_exact {n : Nat} {d : Str} (hlen : d.length = n) (hd : allDigits d) :
    takeDigits n d = some (d, []) := by
  have h := takeDigits_go hlen hd []
  simpa using h

theorem anchoredDisplay_eq_some {s ap hm : Str} (h : anchoredDisplay s = some (ap, hm)) :
    ap = amChars ∨ ap = pmChars := by
  rcases e1 : matchAmPm s with _ | ⟨ap', s1⟩
  · simp [anchoredDisplay, e1] at h
  simp only [anchoredDisplay, e1] at h
  cases s1 with
  | nil => simp at h
  | cons c cs =>
    simp only [] at h
    split at h
    · rcases e2 : num12 cs with _ | ⟨hh, s2⟩
      · simp [e2] at h
      simp only [e2] at h
      rcases e3 : expectStr [':'] s2 with _ | s3
      · simp [e3] at h
      simp only [e3] at h
      rcases e4 : takeDigits 2 s3 with _ | ⟨mi, r⟩
      · simp [e4] at h
      simp only [e4, Option.some.injEq, Prod.mk.injEq] at h
      obtain ⟨hap, -⟩ := h
      subst hap
      exact (matchAmPm_eq_some e1).2
    · simp at h

theorem anchoredDisplay_ts {p : TsParts} (hw : WFts p) :
    anchoredDisplay (p.ampm ++ ' ' :: (p.hour ++ ':' :: p.minute)) =
      some (p.ampm, p.hour ++ ':' :: p.minute) := by
  obtain ⟨hy4, hyd, hm1, hm2, hmd, hd1, hd2, hdd, hap, hh1, hh2, hhd, hmi2, hmid⟩ := hw
  simp only [anchoredDisplay, matchAmPm_self hap, show isJsWs ' ' = true from rfl,
    num12_self hhd hh1 hh2 (notDigitHead_colon _), expectStr_cons_same, expectStr_nil,
    takeDigits_exact hmi2 hmid, if_true]

theorem searchDisplay_of_suffix {t : Str} (h : anchoredDisplay t ≠ none) (pre : Str) :
    searchDisplay (pre ++ t) ≠ none := by
  induction pre with
  | nil =>
    cases t with
    | nil => exact absurd rfl h
    | cons c cs =>
      simp only [List.nil_append, searchDisplay]
      rcases e : anchoredDisplay (c :: cs) with _ | r
      · exact absurd e h
      · simp
  | cons a pre ih =>
    simp only [List.cons_append, searchDisplay]
    rcases e : anchoredDisplay (a :: (pre ++ t)) with _ | r
    · simpa using ih
    · simp

theorem searchDisplay_ap {s ap hm : Str} (h : searchDisplay s = some (ap, hm)) :
    ap = amChars ∨ ap = pmChars := by
  induction s with
  | nil => simp [searchDisplay] at h
  | cons c cs ih =>
    simp only [searchDisplay] at h
    rcases e : anchoredDisplay (c :: cs) with _ | ⟨ap', hm'⟩ <;> rw [e] at h
    · exact ih h
    · simp only [Option.some.injEq, Prod.mk.injEq] at h
      obtain ⟨hap, -⟩ := h
      subst hap
      exact anchoredDisplay_eq_some e

theorem displayTime_ts {p : TsParts} (hw : WFts p) :
    parseTimestampToDisplayTime (tsChars p) ≠ [] := by
  have hdecomp : tsChars p =
      (p.year ++ '년' :: ' ' :: (p.month ++ '월' :: ' ' :: (p.day ++ ['일', ' ']))) ++
        (p.ampm ++ ' ' :: (p.hour ++ ':' :: p.minute)) := by
    simp [tsChars]
  have hne : searchDisplay (tsChars p) ≠ none := by
    rw [hdecomp]
    exact searchDisplay_of_suffix (by rw [anchoredDisplay_ts hw]; simp) _
  unfold parseTimestampToDisplayTime
  rcases e : searchDisplay (tsChars p) with _ | ⟨ap, hm⟩
  · exact absurd e hne
  · rcases searchDisplay_ap e with hap | hap <;> subst hap <;> simp [amChars_list, pmChars_list]

theorem matchMessage_ts {line : Str} {m : MsgMatch} (h : matchMessage line = some m) :
    ∃ p, WFts p ∧ m.fullTimestamp = tsChars p := by
  rcases e1 : matchTs line with _ | ⟨p, rest⟩
  · simp [matchMessage, e1] at h
  simp only [matchMessage, e1] at h
  rcases e2 : expectStr (',' :: [' ']) rest with _ | rest2
  · simp [e2] at h
  simp only [e2] at h
  rcases e3 : splitSpeaker rest2 with _ | ⟨sp, ct⟩
  · simp [e3] at h
  simp only [e3, Option.some.injEq] at h
  subst h
  exact ⟨p, (matchTs_eq_some e1).2, rfl⟩

theorem displayTime_msg {line : Str} {m : MsgMatch} (h : matchMessage line = some m) :
    parseTimestampToDisplayTime m.fullTimestamp ≠ [] := by
  obtain ⟨p, hw, hft⟩ := matchMessage_ts h
  rw [hft]
  exact displayTime_ts hw

/-! ### Branch equations for the loop bodies -/

theorem matchTs_nil : matchTs ([] : Str) = none := rfl

theorem matchTs_deleted : matchTs deletedMsg = none := by decide

theorem matchMessage_nil : matchMessage ([] : Str) = none := rfl

theorem matchMessage_deleted : matchMessage deletedMsg = none := by decide

theorem deletedMsg_ne_nil : deletedMsg ≠ ([] : Str) := by decide

theorem stepA_empty (s : StateA) : stepA s [] = s := rfl

theorem stepA_deleted (s : StateA) :
    stepA s deletedMsg =
      { s with messages := s.messages ++ [ItemA.system deletedMsg], lastMessage := none } := by
  unfold stepA
  rw [if_neg deletedMsg_ne_nil, if_pos rfl]

theorem stepA_date {line : Str} {p : TsParts} (h : matchTs line = some (p, [])) (s : StateA) :
    stepA s line = dateBranchA s line := by
  have h0 : ¬ line = [] := by
    rintro rfl; rw [matchTs_nil] at h; cases h
  have h1 : ¬ line = deletedMsg := by
    rintro rfl; rw [matchTs_deleted] at h; cases h
  unfold stepA
  rw [if_neg h0, if_neg h1, h]

theorem stepA_msg {line : Str} {m : MsgMatch} (hd : isDateHeader line = false)
    (hm : matchMessage line = some m) (s : StateA) : stepA s line = msgBranchA s m := by
  have h0 : ¬ line = [] := by
    rintro rfl; rw [matchMessage_nil] at hm; cases hm
  have h1 : ¬ line = deletedMsg := by
    rintro rfl; rw [matchMessage_deleted] at hm; cases hm
  unfold stepA
  rw [if_neg h0, if_neg h1]
  rcases e : matchTs line with _ | ⟨p, r⟩
  · simp only [hm]
  · cases r with
    | nil => simp [isDateHeader, e] at hd
    | cons c cs => simp only [hm]

theorem stepA_fb {line : Str} (h0 : line ≠ []) (h1 : line ≠ deletedMsg)
    (hd : isDateHeader line = false) (hm : matchMessage line = none) (s : StateA) :
    stepA s line = fallbackA s line := by
  unfold stepA
  rw [if_neg h0, if_neg h1]
  rcases e : matchTs line with _ | ⟨p, r⟩
  · simp only [hm]
  · cases r with
    | nil => simp [isDateHeader, e] at hd
    | cons c cs => simp only [hm]

theorem stepB_empty (s : StateB) : stepB s [] = s := rfl

theorem stepB_deleted (s : StateB) :
    stepB s deletedMsg =
      { s with messages := s.messages ++ [ItemB.system deletedMsg], lastMessage := none } := by
  unfold stepB
  rw [if_neg deletedMsg_ne_nil, if_pos rfl]

theorem stepB_date {line : Str} {p : TsParts} (h : matchTs line = some (p, [])) (s : StateB) :
    stepB s line = dateBranchB s p := by
  have h0 : ¬ line = [] := by
    rintro rfl; rw [matchTs_nil] at h; cases h
  have h1 : ¬ line = deletedMsg := by
    rintro rfl; rw [matchTs_deleted] at h; cases h
  unfold stepB
  rw [if_neg h0, if_neg h1, h]

theorem stepB_msg {line : Str} {m : MsgMatch} (hd : isDateHeader line = false)
    (hm : matchMessage line = some m) (s : StateB) : stepB s line = msgBranchB s m := by
  have h0 : ¬ line = [] := by
    rintro rfl; rw [matchMessage_nil] at hm; cases hm
  have h1 : ¬ line = deletedMsg := by
    rintro rfl; rw [matchMessage_deleted] at hm; cases hm
  unfold stepB
  rw [if_neg h0, if_neg h1]
  rcases e : matchTs line with _ | ⟨p, r⟩
  · simp only [hm]
  · cases r with
    | nil => simp [isDateHeader, e] at hd
    | cons c cs => simp only [hm]

theorem stepB_fb {line : Str} (h0 : line ≠ []) (h1 : line ≠ deletedMsg)
    (hd : isDateHeader line = false) (hm : matchMessage line = none) (s : StateB) :
    stepB s line = fallbackB s line := by
  unfold stepB
  rw [if_neg h0, if_neg h1]
  rcases e : matchTs line with _ | ⟨p, r⟩
  · simp only [hm]
  · cases r with
    | nil => simp [isDateHeader, e] at hd
    | cons c cs => simp only [hm]

/-- Fold preservation of a state predicate. -/
theorem foldl_preserve {σ : Type} {step : σ → Str → σ} {P : σ → Prop}
    (hstep : ∀ s l, P s → P (step s l)) :
    ∀ (L : List Str) (s : σ), P s → P (L.foldl step s) := by
  intro L
  induction L with
  | nil => intro s h; exact h
  | cons l L ih => intro s h; exact ih _ (hstep s l h)

/-! ### Characterizations of the branches of variant A -/

theorem getElem?_lt {α : Type} {l : List α} {i : Nat} {a : α} (h : l[i]? = some a) :
    i < l.length :=
  (List.getElem?_eq_some.mp h).1

theorem getElem?_mem {α : Type} {l : List α} {i : Nat} {a : α} (h : l[i]? = some a) :
    a ∈ l := by
  obtain ⟨hlt, rfl⟩ := List.getElem?_eq_some.mp h
  exact List.getElem_mem hlt

theorem getElem?_set_self {α : Type} {l : List α} {i : Nat} {b : α}
    (h : l[i]? = some b) (a : α) : (l.set i a)[i]? = some a :=
  List.getElem?_set_self (getElem?_lt h)

theorem dateBranchA_cases (s : StateA) (line : Str) :
    dateBranchA s line = s ∨
    (s.lastDate ≠ some (dateKey line) ∧
     dateBranchA s line =
       { s with messages := s.messages ++ [ItemA.date line],
                lastDate := some (dateKey line), lastMessage := none }) := by
  unfold dateBranchA
  rcases e : searchDate line with _ | ⟨y, mo, d⟩
  · exact Or.inl rfl
  · have hk : formatDateWithDay (datePartChars y mo d) = dateKey line := by
      simp [dateKey, logicalDate, e]
    by_cases hld : s.lastDate = some (formatDateWithDay (datePartChars y mo d))
    · exact Or.inl (by simp [hld])
    · refine Or.inr ⟨by rw [← hk]; exact hld, ?_⟩
      rw [← hk]
      simp [hld]

theorem msgDateA_cases (s : StateA) (ft : Str) :
    msgDateA s ft = s ∨
    (s.lastDate ≠ some (dateKey ft) ∧
     msgDateA s ft =
       { s with lastDate := some (dateKey ft),
                messages := s.messages ++ [ItemA.date ft] }) := by
  unfold msgDateA
  rcases e : anchoredDate ft with _ | ⟨y, mo, d, r⟩
  · exact Or.inl rfl
  · have hk : formatDateWithDay (datePartChars y mo d) = dateKey ft := by
      simp [dateKey, logicalDate, searchDate_of_anchored e]
    by_cases hld : s.lastDate = some (formatDateWithDay (datePartChars y mo d))
    · exact Or.inl (by simp [hld])
    · refine Or.inr ⟨by rw [← hk]; exact hld, ?_⟩
      rw [← hk]
      simp [hld]

theorem msgDateA_parts (s : StateA) (ft : Str) :
    ∃ tail : List ItemA,
      (msgDateA s ft).messages = s.messages ++ tail ∧
      (∀ it ∈ tail, ∃ d, it = ItemA.date d) ∧
      (msgDateA s ft).lastMessage = s.lastMessage ∧
      (msgDateA s ft).users = s.users := by
  rcases msgDateA_cases s ft with h | ⟨-, h⟩
  · exact ⟨[], by simp [h], by simp, by rw [h], by rw [h]⟩
  · exact ⟨[ItemA.date ft], by simp [h], by simp, by rw [h], by rw [h]⟩

theorem msgBranchA_eq (s : StateA) (m : MsgMatch) :
    msgBranchA s m =
      { messages :=
          (msgDateA s m.fullTimestamp).messages ++
            [ItemA.message (trimChars m.userName) (trimChars m.content)
              (parseTimestampToDisplayTime m.fullTimestamp) m.fullTimestamp (contFlagA s m)],
        users := addUser (msgDateA s m.fullTimestamp).users (trimChars m.userName),
        lastMessage := some (msgDateA s m.fullTimestamp).messages.length,
        lastDate := (msgDateA s m.fullTimestamp).lastDate } := rfl

theorem contFlagA_true {s : StateA} {m : MsgMatch} (h : contFlagA s m = true) :
    ∃ j c0 ft0 ic0, s.lastMessage = some j ∧
      s.messages[j]? = some (ItemA.message (trimChars m.userName) c0
        (parseTimestampToDisplayTime m.fullTimestamp) ft0 ic0) := by
  unfold contFlagA currentA at h
  rcases e0 : s.lastMessage with _ | j
  · rw [e0] at h; simp at h
  simp only [e0] at h
  rcases e1 : s.messages[j]? with _ | it
  · simp only [e1] at h; cases h
  simp only [e1] at h
  cases it with
  | message u c t ft ic =>
    simp at h
    exact ⟨j, c, ft, ic, rfl, by rw [e1, h.1, h.2]⟩
  | date d => simp at h
  | system c => simp at h

theorem fallbackA_cases (s : StateA) (line : Str) :
    fallbackA s line = s ∨
    (∃ i u c t ft ic, s.lastMessage = some i ∧
      s.messages[i]? = some (ItemA.message u c t ft ic) ∧
      fallbackA s line =
        { s with messages := s.messages.set i (ItemA.message u (c ++ '\n' :: line) t ft ic) }) := by
  rcases e0 : s.lastMessage with _ | i
  · left; unfold fallbackA; simp only [e0]
  · rcases e1 : s.messages[i]? with _ | it
    · left; unfold fallbackA; simp only [e0, e1]
    · cases it with
      | message u c t ft ic =>
        refine Or.inr ⟨i, u, c, t, ft, ic, rfl, e1, ?_⟩
        unfold fallbackA
        simp only [e0, e1]
      | date d => left; unfold fallbackA; simp only [e0, e1]
      | system c => left; unfold fallbackA; simp only [e0, e1]

theorem isDateHeader_false_of_matchTs_none {line : Str} (e : matchTs line = none) :
    isDateHeader line = false := by
  simp [isDateHeader, e]

theorem isDateHeader_false_of_rest_cons {line : Str} {p : TsParts} {c : Char} {cs : Str}
    (e : matchTs line = some (p, c :: cs)) : isDateHeader line = false := by
  simp [isDateHeader, e]

/-- Master case analysis of the loop body of variant A: each processed line
either leaves the state unchanged, pushes a SystemNotice and resets the
tracker, pushes a DateMarker and resets the tracker, runs the message
branch, or absorbs the line into the tracked message. -/
theorem stepA_cases (s : StateA) (line : Str) :
    stepA s line = s ∨
    stepA s line =
      { s with messages := s.messages ++ [ItemA.system deletedMsg], lastMessage := none } ∨
    (s.lastDate ≠ some (dateKey line) ∧
     stepA s line =
       { s with messages := s.messages ++ [ItemA.date line],
                lastDate := some (dateKey line), lastMessage := none }) ∨
    (∃ m, matchMessage line = some m ∧ stepA s line = msgBranchA s m) ∨
    (∃ i u c t ft ic, s.lastMessage = some i ∧
      s.messages[i]? = some (ItemA.message u c t ft ic) ∧
      stepA s line =
        { s with messages := s.messages.set i (ItemA.message u (c ++ '\n' :: line) t ft ic) }) := by
  by_cases h0 : line = []
  · subst h0; exact Or.inl (stepA_empty s)
  by_cases h1 : line = deletedMsg
  · subst h1; exact Or.inr (Or.inl (stepA_deleted s))
  rcases e : matchTs line with _ | ⟨p, r⟩
  · have hd := isDateHeader_false_of_matchTs_none e
    rcases em : matchMessage line with _ | m
    · rcases fallbackA_cases s line with hf | ⟨i, u, c, t, ft, ic, hi, hg, hf⟩
      · exact Or.inl ((stepA_fb h0 h1 hd em s).trans hf)
      · exact Or.inr (Or.inr (Or.inr (Or.inr
          ⟨i, u, c, t, ft, ic, hi, hg, (stepA_fb h0 h1 hd em s).trans hf⟩)))
    · exact Or.inr (Or.inr (Or.inr (Or.inl ⟨m, rfl, stepA_msg hd em s⟩)))
  · cases r with
    | nil =>
      have h := stepA_date e s
      rcases dateBranchA_cases s line with hdb | ⟨hne, hdb⟩
      · exact Or.inl (h.trans hdb)
      · exact Or.inr (Or.inr (Or.inl ⟨hne, h.trans hdb⟩))
    | cons a as =>
      have hd := isDateHeader_false_of_rest_cons e
      rcases em : matchMessage line with _ | m
      · rcases fallbackA_cases s line with hf | ⟨i, u, c, t, ft, ic, hi, hg, hf⟩
        · exact Or.inl ((stepA_fb h0 h1 hd em s).trans hf)
        · exact Or.inr (Or.inr (Or.inr (Or.inr
            ⟨i, u, c, t, ft, ic, hi, hg, (stepA_fb h0 h1 hd em s).trans hf⟩)))
      · exact Or.inr (Or.inr (Or.inr (Or.inl ⟨m, rfl, stepA_msg hd em s⟩)))

/-! ### The tracker and continuation-flag invariants of variant A -/

/-- Tracker invariant: when the current-message index is set, it points at a
message item, and every later item of the list is a DateMarker (the tracker
is cleared by every other kind of push). -/
def TrackP (lm : Option Nat) (ms : List ItemA) : Prop :=
  ∀ j : Nat, lm = some j →
    (∃ u c t ft ic, ms[j]? = some (ItemA.message u c t ft ic)) ∧
    ∀ (k : Nat) (it : ItemA), j < k → ms[k]? = some it → ∃ d, it = ItemA.date d

/-- Flag invariant: a message item carrying a true continuation flag is
preceded by a message item with the same speaker and display timestamp,
separated only by DateMarkers. -/
def FlagP (ms : List ItemA) : Prop :=
  ∀ (i : Nat) (u c t ft : Str), ms[i]? = some (ItemA.message u c t ft true) →
    ∃ j, j < i ∧
      (∃ c' ft' ic', ms[j]? = some (ItemA.message u c' t ft' ic')) ∧
      ∀ k : Nat, j < k → k < i → ∃ d, ms[k]? = some (ItemA.date d)

/-- The combined invariant carried through the loop of variant A. -/
def CInv (s : StateA) : Prop := TrackP s.lastMessage s.messages ∧ FlagP s.messages

theorem flagP_append_tail {ms tail : List ItemA} (h : FlagP ms)
    (hx : ∀ it ∈ tail, ∀ u c t ft, it ≠ ItemA.message u c t ft true) :
    FlagP (ms ++ tail) := by
  intro i u c t ft hi
  by_cases hlt : i < ms.length
  · rw [List.getElem?_append_left hlt] at hi
    obtain ⟨j, hj, ⟨c', ft', ic', hjg⟩, hbet⟩ := h i u c t ft hi
    refine ⟨j, hj, ⟨c', ft', ic', ?_⟩, ?_⟩
    · rw [List.getElem?_append_left (lt_trans hj hlt)]; exact hjg
    · intro k hk1 hk2
      obtain ⟨d, hd⟩ := hbet k hk1 hk2
      exact ⟨d, by rw [List.getElem?_append_left (lt_trans hk2 hlt)]; exact hd⟩
  · push_neg at hlt
    rw [List.getElem?_append_right hlt] at hi
    have hmem : ItemA.message u c t ft true ∈ tail := getElem?_mem hi
    exact absurd rfl (hx _ hmem u c t ft)

theorem trackP_none (ms : List ItemA) : TrackP none ms := by
  intro j hj; cases hj

theorem cInv_step (s : StateA) (line : Str) (h : CInv s) : CInv (stepA s line) := by
  obtain ⟨htr, hfl⟩ := h
  rcases stepA_cases s line with hs | hs | ⟨hne, hs⟩ | ⟨m, hm, hs⟩ |
    ⟨i, u, c, t, ft, ic, hi, hg, hs⟩
  · rw [hs]; exact ⟨htr, hfl⟩
  · rw [hs]
    refine ⟨trackP_none _, flagP_append_tail hfl ?_⟩
    intro it hit u0 c0 t0 ft0 he
    simp only [List.mem_singleton] at hit
    subst hit
    simp at he
  · rw [hs]
    refine ⟨trackP_none _, flagP_append_tail hfl ?_⟩
    intro it hit u0 c0 t0 ft0 he
    simp only [List.mem_singleton] at hit
    subst hit
    simp at he
  · -- message branch
    rw [hs, msgBranchA_eq]
    obtain ⟨tail, htail, htaildate, hlm1, hus1⟩ := msgDateA_parts s m.fullTimestamp
    rw [htail]
    constructor
    · -- tracker now points at the newly pushed message
      intro j hj
      simp only [Option.some.injEq] at hj
      subst hj
      constructor
      · exact ⟨_, _, _, _, _, List.getElem?_concat_length _ _⟩
      · intro k it hk hkg
        have hk' : s.messages.length + tail.length < k := by
          simpa using hk
        have hnone : ((s.messages ++ tail) ++
            [ItemA.message (trimChars m.userName) (trimChars m.content)
              (parseTimestampToDisplayTime m.fullTimestamp) m.fullTimestamp
              (contFlagA s m)])[k]? = none := by
          apply List.getElem?_eq_none
          simp only [List.length_append, List.length_cons, List.length_nil]
          omega
        rw [hnone] at hkg; cases hkg
    · -- flag invariant for the extended list
      intro i' u' c' t' ft' hi'
      have hlenL : s.messages.length ≤ (s.messages ++ tail).length := by
        simp
      by_cases hlt : i' < (s.messages ++ tail).length
      · -- an old item: transfer from FlagP of the old list extended by dates
        have hflL : FlagP (s.messages ++ tail) := by
          refine flagP_append_tail hfl ?_
          intro it hit u0 c0 t0 ft0 he
          obtain ⟨d, hd⟩ := htaildate it hit
          subst hd
          simp at he
        rw [List.getElem?_append_left hlt] at hi'
        obtain ⟨j, hj, ⟨c2, ft2, ic2, hjg⟩, hbet⟩ := hflL i' u' c' t' ft' hi'
        refine ⟨j, hj, ⟨c2, ft2, ic2, ?_⟩, ?_⟩
        · rw [List.getElem?_append_left (lt_trans hj hlt)]; exact hjg
        · intro k hk1 hk2
          obtain ⟨d, hd⟩ := hbet k hk1 hk2
          exact ⟨d, by rw [List.getElem?_append_left (lt_trans hk2 hlt)]; exact hd⟩
      · -- the newly pushed message itself, with a true flag
        push_neg at hlt
        rw [List.getElem?_append_right hlt] at hi'
        have hi0 : i' - (s.messages ++ tail).length = 0 := by
          by_contra hne0
          rw [List.getElem?_eq_none
            (by simp only [List.length_cons, List.length_nil]; omega)] at hi'
          cases hi'
        rw [hi0] at hi'
        simp only [List.getElem?_cons_zero, Option.some.injEq, ItemA.message.injEq] at hi'
        obtain ⟨hu', hc', ht', hft', hcf⟩ := hi'
        have hieq : i' = (s.messages ++ tail).length := by omega
        obtain ⟨j0, c0, ft0, ic0, hlm0, hg0⟩ := contFlagA_true hcf
        have hj0lt : j0 < s.messages.length := getElem?_lt hg0
        refine ⟨j0, ?_, ⟨c0, ft0, ic0, ?_⟩, ?_⟩
        · rw [hieq]; simp only [List.length_append]; omega
        · rw [List.getElem?_append_left (by simp only [List.length_append]; omega),
            List.getElem?_append_left hj0lt, hg0, hu', ht']
        · intro k hk1 hk2
          rw [hieq] at hk2
          by_cases hks : k < s.messages.length
          · obtain ⟨d, hd⟩ :=
              (htr j0 hlm0).2 k _ hk1 (List.getElem?_eq_getElem hks)
            refine ⟨d, ?_⟩
            rw [List.getElem?_append_left hk2, List.getElem?_append_left hks,
              List.getElem?_eq_getElem hks, hd]
          · push_neg at hks
            have hlt2 : k - s.messages.length < tail.length := by
              simp only [List.length_append] at hk2
              omega
            obtain ⟨d, hd⟩ :=
              htaildate _ (getElem?_mem (List.getElem?_eq_getElem hlt2))
            refine ⟨d, ?_⟩
            rw [List.getElem?_append_left hk2, List.getElem?_append_right hks,
              List.getElem?_eq_getElem hlt2, hd]
  · -- continuation absorption
    rw [hs]
    constructor
    · intro j hj
      rw [hi] at hj
      have hji : j = i := (Option.some.inj hj).symm
      subst hji
      refine ⟨⟨u, c ++ '\n' :: line, t, ft, ic, getElem?_set_self hg _⟩, ?_⟩
      intro k it hk hkg
      rw [List.getElem?_set_ne (by omega)] at hkg
      exact (htr j hi).2 k it hk hkg
    · intro i' u' c' t' ft' hi'
      by_cases hii : i = i'
      · subst hii
        rw [getElem?_set_self hg _] at hi'
        simp only [Option.some.injEq, ItemA.message.injEq] at hi'
        obtain ⟨hu', hc', ht', hft', hic⟩ := hi'
        have hgold : s.messages[i]? = some (ItemA.message u c t ft true) := by
          rw [hg, hic]
        obtain ⟨j, hj, ⟨c2, ft2, ic2, hjg⟩, hbet⟩ := hfl i u c t ft hgold
        refine ⟨j, hj, ⟨c2, ft2, ic2, ?_⟩, ?_⟩
        · rw [List.getElem?_set_ne (by omega), hjg, hu', ht']
        · intro k hk1 hk2
          obtain ⟨d, hd⟩ := hbet k hk1 hk2
          exact ⟨d, by rw [List.getElem?_set_ne (by omega)]; exact hd⟩
      · rw [List.getElem?_set_ne hii] at hi'
        obtain ⟨j, hj, ⟨c2, ft2, ic2, hjg⟩, hbet⟩ := hfl i' u' c' t' ft' hi'
        by_cases hji : j = i
        · subst hji
          rw [hg] at hjg
          simp only [Option.some.injEq, ItemA.message.injEq] at hjg
          obtain ⟨hu2, hc2, ht2, hft2, hic2⟩ := hjg
          refine ⟨j, hj, ⟨c ++ '\n' :: line, ft, ic, ?_⟩, ?_⟩
          · rw [getElem?_set_self hg _, hu2, ht2]
          · intro k hk1 hk2
            obtain ⟨d, hd⟩ := hbet k hk1 hk2
            exact ⟨d, by rw [List.getElem?_set_ne (by omega)]; exact hd⟩
        · refine ⟨j, hj, ⟨c2, ft2, ic2, ?_⟩, ?_⟩
          · rw [List.getElem?_set_ne (fun he => hji he.symm)]; exact hjg
          · intro k hk1 hk2
            obtain ⟨d, hd⟩ := hbet k hk1 hk2
            refine ⟨d, ?_⟩
            rw [List.getElem?_set_ne ?_]
            · exact hd
            · intro hki
              rw [← hki] at hd
              rw [hg] at hd
              simp at hd

theorem flagP_nil : FlagP [] := by
  intro i u c t ft h
  simp at h

theorem cInv_init : CInv initA :=
  ⟨trackP_none _, flagP_nil⟩

theorem flagP_parseChatA (txt : String) : FlagP (parseChatA txt).messages :=
  (foldl_preserve cInv_step ((linesOf txt).drop 3) initA cInv_init).2

/-! ### The backward continuation invariant of variant A -/

/-- Converse direction of `contFlagA_true`: when the tracker points at a
message with the incoming line's trimmed speaker and display timestamp, the
continuation flag computes to `true`. -/
theorem contFlagA_of_current {s : StateA} {m : MsgMatch} {j : Nat} {c0 ft0 : Str}
    {ic0 : Bool} (hlm : s.lastMessage = some j)
    (hj : s.messages[j]? = some (ItemA.message (trimChars m.userName) c0
      (parseTimestampToDisplayTime m.fullTimestamp) ft0 ic0)) :
    contFlagA s m = true := by
  unfold contFlagA currentA
  simp [hlm, hj]

/-- Tail invariant: whenever the last emitted item is a Message, the
current-message tracker points at it.  Every push of a non-message item
resets the tracker, a message push retargets it to the new last index, and
absorption changes neither side. -/
def TailP (lm : Option Nat) (ms : List ItemA) : Prop :=
  ∀ u c t ft ic, ms[ms.length - 1]? = some (ItemA.message u c t ft ic) →
    lm = some (ms.length - 1)

/-- Backward continuation invariant: a Message immediately following a
Message with the same trimmed speaker and the same display timestamp
carries a true continuation flag. -/
def BackP (ms : List ItemA) : Prop :=
  ∀ (j : Nat) (u c t ft : Str) (ic : Bool) (c' ft' : Str) (ic' : Bool),
    ms[j]? = some (ItemA.message u c t ft ic) →
    ms[j + 1]? = some (ItemA.message u c' t ft' ic') →
    ic' = true

/-- The combined backward invariant carried through the loop of variant A. -/
def BInv (s : StateA) : Prop := TailP s.lastMessage s.messages ∧ BackP s.messages

theorem tailP_append_nonmsg {ms : List ItemA} {x : ItemA} (lm : Option Nat)
    (hx : ∀ u c t ft ic, x ≠ ItemA.message u c t ft ic) :
    TailP lm (ms ++ [x]) := by
  intro u c t ft ic hlast
  rw [show (ms ++ [x]).length - 1 = ms.length from by simp] at hlast
  rw [List.getElem?_concat_length] at hlast
  exact absurd (Option.some.inj hlast) (hx u c t ft ic)

theorem backP_append_nonmsg {ms : List ItemA} {x : ItemA} (h : BackP ms)
    (hx : ∀ u c t ft ic, x ≠ ItemA.message u c t ft ic) :
    BackP (ms ++ [x]) := by
  intro j u c t ft ic c' ft' ic' h1 h2
  by_cases hj : j + 1 < ms.length
  · rw [List.getElem?_append_left hj] at h2
    rw [List.getElem?_append_left (by omega)] at h1
    exact h j u c t ft ic c' ft' ic' h1 h2
  · by_cases hj2 : j + 1 = ms.length
    · rw [hj2, List.getElem?_concat_length] at h2
      exact absurd (Option.some.inj h2) (hx u c' t ft' ic')
    · rw [List.getElem?_eq_none
        (by rw [List.length_append]; simp only [List.length_cons, List.length_nil]; omega)] at h2
      cases h2

theorem bInv_step (s : StateA) (line : Str) (h : BInv s) : BInv (stepA s line) := by
  obtain ⟨htl, hbk⟩ := h
  rcases stepA_cases s line with hs | hs | ⟨hne, hs⟩ | ⟨m, hm, hs⟩ |
    ⟨i, u, c, t, ft, ic, hi, hg, hs⟩
  · rw [hs]; exact ⟨htl, hbk⟩
  · rw [hs]
    exact ⟨tailP_append_nonmsg _ (fun u c t ft ic he => by cases he),
      backP_append_nonmsg hbk (fun u c t ft ic he => by cases he)⟩
  · rw [hs]
    exact ⟨tailP_append_nonmsg _ (fun u c t ft ic he => by cases he),
      backP_append_nonmsg hbk (fun u c t ft ic he => by cases he)⟩
  · -- message branch: the new message becomes the tracked last item; its
    -- flag is true whenever its immediate predecessor is the old tracked
    -- message with the same speaker and display timestamp
    rw [hs, msgBranchA_eq]
    obtain ⟨tail, htail, htaildate, hlm1, hus1⟩ := msgDateA_parts s m.fullTimestamp
    rw [htail]
    constructor
    · intro u0 c0 t0 ft0 ic0 hlast
      simp
    · intro j u0 c0 t0 ft0 ic0 c0' ft0' ic0' h1 h2
      by_cases hj : j + 1 < (s.messages ++ tail).length
      · rw [List.getElem?_append_left hj] at h2
        rw [List.getElem?_append_left (by omega)] at h1
        by_cases hjs : j + 1 < s.messages.length
        · rw [List.getElem?_append_left hjs] at h2
          rw [List.getElem?_append_left (by omega)] at h1
          exact hbk j u0 c0 t0 ft0 ic0 c0' ft0' ic0' h1 h2
        · push_neg at hjs
          rw [List.getElem?_append_right hjs] at h2
          obtain ⟨d, hd⟩ := htaildate _ (getElem?_mem h2)
          simp at hd
      · by_cases hj2 : j + 1 = (s.messages ++ tail).length
        · rw [hj2, List.getElem?_concat_length] at h2
          simp only [Option.some.injEq, ItemA.message.injEq] at h2
          obtain ⟨hu0, -, ht0, -, hic0⟩ := h2
          rw [List.getElem?_append_left (by omega)] at h1
          simp only [List.length_append] at hj2
          by_cases hjs : j < s.messages.length
          · rw [List.getElem?_append_left hjs] at h1
            have hj' : j = s.messages.length - 1 := by omega
            rw [hj'] at h1
            have hlm := htl u0 c0 t0 ft0 ic0 h1
            rw [← hj'] at hlm h1
            rw [← hic0]
            exact contFlagA_of_current hlm (by rw [h1, ← hu0, ← ht0])
          · push_neg at hjs
            rw [List.getElem?_append_right hjs] at h1
            obtain ⟨d, hd⟩ := htaildate _ (getElem?_mem h1)
            simp at hd
        · rw [List.getElem?_eq_none
            (by rw [List.length_append]
                simp only [List.length_cons, List.length_nil]; omega)] at h2
          cases h2
  · -- continuation absorption: the set item keeps its speaker, display
    -- timestamp and flag, so adjacent-pair facts transfer both ways
    rw [hs]
    constructor
    · intro u0 c0 t0 ft0 ic0 hlast
      rw [List.length_set] at hlast
      rw [List.length_set]
      by_cases hii : i = s.messages.length - 1
      · rw [hii] at hg
        exact htl u c t ft ic hg
      · rw [List.getElem?_set_ne hii] at hlast
        exact htl u0 c0 t0 ft0 ic0 hlast
    · intro j u0 c0 t0 ft0 ic0 c0' ft0' ic0' h1 h2
      by_cases hji : i = j
      · have h1' := h1
        rw [← hji] at h1'
        rw [getElem?_set_self hg _] at h1'
        simp only [Option.some.injEq, ItemA.message.injEq] at h1'
        obtain ⟨hu, -, ht, -, -⟩ := h1'
        rw [List.getElem?_set_ne (by omega)] at h2
        rw [← hu, ← ht] at h2
        rw [hji] at hg
        exact hbk j u c t ft ic c0' ft0' ic0' hg h2
      · by_cases hji2 : i = j + 1
        · have h2' := h2
          rw [← hji2] at h2'
          rw [getElem?_set_self hg _] at h2'
          simp only [Option.some.injEq, ItemA.message.injEq] at h2'
          obtain ⟨hu, -, ht, -, hic⟩ := h2'
          rw [List.getElem?_set_ne hji] at h1
          rw [hji2] at hg
          rw [hu, ht] at hg
          rw [← hic]
          exact hbk j u0 c0 t0 ft0 ic0 c ft ic h1 hg
        · rw [List.getElem?_set_ne hji] at h1
          rw [List.getElem?_set_ne hji2] at h2
          exact hbk j u0 c0 t0 ft0 ic0 c0' ft0' ic0' h1 h2

theorem tailP_nil : TailP none [] := by
  intro u c t ft ic h
  simp at h

theorem backP_nil : BackP [] := by
  intro j u c t ft ic c' ft' ic' h1 h2
  simp at h1

theorem bInv_init : BInv initA := ⟨tailP_nil, backP_nil⟩

theorem backP_parseChatA (txt : String) : BackP (parseChatA txt).messages :=
  (foldl_preserve bInv_step ((linesOf txt).drop 3) initA bInv_init).2

/-- Claim C1, stated literally: a Message's continuation flag is true iff the
item immediately preceding it in the returned list is a Message with the
same trimmed speaker and the identical display timestamp. -/
def C1Claim : Prop :=
  ∀ (txt : String) (i : Nat) (u c t ft : Str) (ic : Bool),
    (parseChatA txt).messages[i]? = some (ItemA.message u c t ft ic) →
    (ic = true ↔ ∃ j, i = j + 1 ∧ ∃ u' c' t' ft' ic',
      (parseChatA txt).messages[j]? = some (ItemA.message u' c' t' ft' ic') ∧
      u' = u ∧ t' = t)

/-- Input refuting claim C1: two message lines from the same speaker at the
same display time but on different days; the second message emits a
DateMarker immediately before itself, yet keeps `isContinuation = true`. -/
def exC1 : String :=
  "T\nS\n\n2024년 1월 1일 오전 9:00, A : hello\n2024년 1월 2일 오전 9:00, A : world"

/-- Claim C1 is false on the code: on `exC1` the item at index 3 is a Message
with a true continuation flag whose immediate predecessor (index 2) is a
DateMarker, not a Message. -/
theorem c1_counterexample : ¬ C1Claim := by
  intro h
  have h3 := h exC1 3 "A".data "world".data "오전 9:00".data
    "2024년 1월 2일 오전 9:00".data true (by decide)
  obtain ⟨j, hj, u', c', t', ft', ic', hjg, -, -⟩ := h3.mp rfl
  have hj2 : j = 2 := by omega
  subst hj2
  have hd : (parseChatA exC1).messages[2]? =
      some (ItemA.date "2024년 1월 2일 오전 9:00".data) := by decide
  rw [hd] at hjg
  simp at hjg

/-- Claim C1 (amended): the forward direction of the stated iff is weakened
only as `c1_counterexample` forces — if a Message emitted by `parseChatA`
carries a true continuation flag, then the most recently emitted preceding
Message has the same trimmed speaker and the identical display timestamp,
and every item strictly between the two is a DateMarker (the item
immediately preceding can be a DateMarker, because one emitted in the
message branch does not reset the current-message tracker).  The backward
direction holds as originally stated: when the item immediately preceding a
Message is a Message with the same trimmed speaker and the identical
display timestamp, the continuation flag is true. -/
theorem c1_continuation :
    (∀ (txt : String) (i : Nat) (u c t ft : Str),
      (parseChatA txt).messages[i]? = some (ItemA.message u c t ft true) →
      ∃ j, j < i ∧
        (∃ c' ft' ic',
          (parseChatA txt).messages[j]? = some (ItemA.message u c' t ft' ic')) ∧
        ∀ k : Nat, j < k → k < i →
          ∃ d, (parseChatA txt).messages[k]? = some (ItemA.date d)) ∧
    (∀ (txt : String) (j : Nat) (u c t ft : Str) (ic : Bool) (c' ft' : Str)
      (ic' : Bool),
      (parseChatA txt).messages[j]? = some (ItemA.message u c t ft ic) →
      (parseChatA txt).messages[j + 1]? = some (ItemA.message u c' t ft' ic') →
      ic' = true) :=
  ⟨fun txt i u c t ft h => flagP_parseChatA txt i u c t ft h,
   fun txt j u c t ft ic c' ft' ic' h1 h2 =>
     backP_parseChatA txt j u c t ft ic c' ft' ic' h1 h2⟩

/-- Input exercising the backward direction of C1's amended statement: two
adjacent Messages from the same speaker at the same display time. -/
def exC1b : String :=
  "T\nS\n\n2024년 1월 1일 오전 9:00, A : hello\n2024년 1월 1일 오전 9:00, A : world"

/-- Witness for C1's amended theorem at concrete inputs: the forward
direction at index 3 of `exC1`, the backward direction at the adjacent
Messages of `exC1b` (indices 1 and 2). -/
theorem c1_witness :
    (∃ j, j < 3 ∧
      (∃ c' ft' ic', (parseChatA exC1).messages[j]? =
        some (ItemA.message "A".data c' "오전 9:00".data ft' ic')) ∧
      ∀ k : Nat, j < k → k < 3 →
        ∃ d, (parseChatA exC1).messages[k]? = some (ItemA.date d)) ∧
    (true : Bool) = true :=
  ⟨c1_continuation.1 exC1 3 "A".data "world".data "오전 9:00".data
      "2024년 1월 2일 오전 9:00".data (by decide),
   c1_continuation.2 exC1b 1 "A".data "hello".data "오전 9:00".data
      "2024년 1월 1일 오전 9:00".data false "world".data
      "2024년 1월 1일 오전 9:00".data true (by decide) (by decide)⟩

/-! ### Claim C2: processing a date-only header line -/

/-- Claim C2, stated literally: processing a line matching the date-only
header pattern resets the current-message tracker regardless of whether a
DateMarker is emitted or skipped as a duplicate of `lastDate`. -/
def C2Claim : Prop :=
  ∀ (s : StateA) (line : Str) (p : TsParts),
    matchTs line = some (p, []) → (stepA s line).lastMessage = none

/-- Input refuting the consequence part of claim C2: a duplicate date header
between a message and a stray line; the stray line is absorbed into the
pre-header message because the skipped header does not reset the tracker. -/
def exC2 : String :=
  "T\nS\n\n2024년 1월 1일 오전 9:00\n2024년 1월 1일 오전 9:00, A : hello\n2024년 1월 1일 오전 9:00\nstray"

/-- Claim C2 is false on the code: a date-only header line whose formatted
date equals `lastDate` is skipped without resetting the current-message
tracker. -/
theorem c2_counterexample : ¬ C2Claim := by
  intro h
  have hc := h
    ⟨[ItemA.message "A".data "hello".data "오전 9:00".data
        "2024년 1월 1일 오전 9:00".data false],
      ["A".data], some 0, some (formatDateWithDay "2024년 1월 1일".data)⟩
    "2024년 1월 1일 오전 9:00".data
    ⟨"2024".data, "1".data, "1".data, amChars, "9".data, "00".data⟩
    (by decide)
  exact absurd hc (by decide)

/-- Claim C2 (amended): processing a date-only header line emits a
DateMarker, updates `lastDate` and resets the current-message tracker
exactly when its weekday-formatted date differs from `lastDate`; a header
deduplicated against `lastDate` leaves the parser state entirely unchanged,
so a later non-matching line is still absorbed into the body of the message
emitted before the header (demonstrated by the second conjunct: on `exC2`
the stray line after the duplicate header is appended to the pre-header
message's body). -/
theorem c2_dateHeader :
    (∀ (s : StateA) (line : Str) (p : TsParts), matchTs line = some (p, []) →
      (s.lastDate ≠ some (dateKey line) →
        stepA s line =
          { s with messages := s.messages ++ [ItemA.date line],
                   lastDate := some (dateKey line), lastMessage := none }) ∧
      (s.lastDate = some (dateKey line) → stepA s line = s)) ∧
    (parseChatA exC2).messages =
      [ItemA.date "2024년 1월 1일 오전 9:00".data,
       ItemA.message "A".data "hello\nstray".data "오전 9:00".data
         "2024년 1월 1일 오전 9:00".data false] := by
  constructor
  · intro s line p h
    obtain ⟨hline, hw⟩ := matchTs_eq_some h
    have hline' : line = tsChars p := by simpa using hline
    have hsd : searchDate line = some (p.year, p.month, p.day) := by
      have h0 := searchDate_ts hw []
      rw [tsChars_append_nil] at h0
      rw [hline']
      exact h0
    have hk : formatDateWithDay (datePartChars p.year p.month p.day) = dateKey line := by
      simp [dateKey, logicalDate, hsd]
    rw [stepA_date h]
    unfold dateBranchA
    simp only [hsd, hk]
    constructor
    · intro hne
      rw [if_neg hne]
    · intro heq
      rw [if_pos heq]
  · decide

/-- Witness for C2's amended theorem at a concrete state and header line. -/
theorem c2_witness :
    stepA initA "2024년 1월 1일 오전 9:00".data =
      { initA with
          messages := initA.messages ++ [ItemA.date "2024년 1월 1일 오전 9:00".data],
          lastDate := some (dateKey "2024년 1월 1일 오전 9:00".data),
          lastMessage := none } :=
  (c2_dateHeader.1 initA "2024년 1월 1일 오전 9:00".data
    ⟨"2024".data, "1".data, "1".data, amChars, "9".data, "00".data⟩ (by decide)).1
    (by decide)

/-! ### Claim C4: deduplication of adjacent DateMarkers -/

/-- LastDate invariant: `lastDate` is `none` exactly as long as no
DateMarker has been emitted, and otherwise holds the dedup key of the most
recently emitted DateMarker. -/
def LastDateP (ld : Option Str) (ms : List ItemA) : Prop :=
  (ld = none → ∀ it ∈ ms, ∀ d, it ≠ ItemA.date d) ∧
  (∀ key : Str, ld = some key →
    ∃ i d, ms[i]? = some (ItemA.date d) ∧ key = dateKey d ∧
      ∀ (k : Nat) (it : ItemA), i < k → ms[k]? = some it → ∀ d', it ≠ ItemA.date d')

/-- Adjacent-DateMarker invariant: two DateMarkers with no DateMarker
strictly between them have different dedup keys. -/
def AdjP (ms : List ItemA) : Prop :=
  ∀ (i j : Nat) (d1 d2 : Str), i < j →
    ms[i]? = some (ItemA.date d1) → ms[j]? = some (ItemA.date d2) →
    (∀ (k : Nat) (it : ItemA), i < k → k < j → ms[k]? = some it →
      ∀ d', it ≠ ItemA.date d') →
    dateKey d1 ≠ dateKey d2

/-- The combined DateMarker invariant carried through the loop. -/
def DInv (s : StateA) : Prop := LastDateP s.lastDate s.messages ∧ AdjP s.messages

theorem dInvP_append_nondate {ld : Option Str} {ms : List ItemA} {x : ItemA}
    (h1 : LastDateP ld ms) (h2 : AdjP ms) (hx : ∀ d, x ≠ ItemA.date d) :
    LastDateP ld (ms ++ [x]) ∧ AdjP (ms ++ [x]) := by
  constructor
  · constructor
    · intro hld it hit d
      rcases List.mem_append.mp hit with hit | hit
      · exact h1.1 hld it hit d
      · simp only [List.mem_singleton] at hit
        subst hit
        exact hx d
    · intro key hld
      obtain ⟨i, d, hig, hkey, haft⟩ := h1.2 key hld
      have hilt : i < ms.length := getElem?_lt hig
      refine ⟨i, d, by rw [List.getElem?_append_left hilt]; exact hig, hkey, ?_⟩
      intro k it hk hkg d'
      by_cases hks : k < ms.length
      · rw [List.getElem?_append_left hks] at hkg
        exact haft k it hk hkg d'
      · push_neg at hks
        rw [List.getElem?_append_right hks] at hkg
        have : it ∈ [x] := getElem?_mem hkg
        simp only [List.mem_singleton] at this
        subst this
        exact hx d'
  · intro i j d1 d2 hij hig hjg hbet
    have hjlt : j < ms.length := by
      by_contra hge
      push_neg at hge
      rw [List.getElem?_append_right hge] at hjg
      have := getElem?_mem hjg
      simp only [List.mem_singleton] at this
      exact absurd this.symm (hx d2)
    have hilt : i < ms.length := lt_trans hij hjlt
    rw [List.getElem?_append_left hilt] at hig
    rw [List.getElem?_append_left hjlt] at hjg
    refine h2 i j d1 d2 hij hig hjg ?_
    intro k it hk1 hk2 hkg d'
    exact hbet k it hk1 hk2
      (by rw [List.getElem?_append_left (lt_trans hk2 hjlt)]; exact hkg) d'

theorem dInvP_append_date {ld : Option Str} {ms : List ItemA} {dpay : Str}
    (h1 : LastDateP ld ms) (h2 : AdjP ms) (hne : ld ≠ some (dateKey dpay)) :
    LastDateP (some (dateKey dpay)) (ms ++ [ItemA.date dpay]) ∧
    AdjP (ms ++ [ItemA.date dpay]) := by
  constructor
  · constructor
    · intro hcontra
      cases hcontra
    · intro key hld
      simp only [Option.some.injEq] at hld
      refine ⟨ms.length, dpay, List.getElem?_concat_length _ _, hld.symm, ?_⟩
      intro k it hk hkg d'
      have : (ms ++ [ItemA.date dpay])[k]? = none := by
        apply List.getElem?_eq_none
        simp only [List.length_append, List.length_cons, List.length_nil]
        omega
      rw [this] at hkg
      cases hkg
  · intro i j d1 d2 hij hig hjg hbet
    by_cases hjlt : j < ms.length
    · -- an old pair
      have hilt : i < ms.length := lt_trans hij hjlt
      rw [List.getElem?_append_left hilt] at hig
      rw [List.getElem?_append_left hjlt] at hjg
      refine h2 i j d1 d2 hij hig hjg ?_
      intro k it hk1 hk2 hkg d'
      exact hbet k it hk1 hk2
        (by rw [List.getElem?_append_left (lt_trans hk2 hjlt)]; exact hkg) d'
    · -- the new DateMarker against the closest earlier DateMarker
      push_neg at hjlt
      rw [List.getElem?_append_right hjlt] at hjg
      have hj0 : j - ms.length = 0 := by
        by_contra hne0
        rw [List.getElem?_eq_none
          (by simp only [List.length_cons, List.length_nil]; omega)] at hjg
        cases hjg
      rw [hj0] at hjg
      simp only [List.getElem?_cons_zero, Option.some.injEq, ItemA.date.injEq] at hjg
      subst hjg
      have hjeq : j = ms.length := by omega
      have hilt : i < ms.length := by omega
      rw [List.getElem?_append_left hilt] at hig
      -- identify i with the most recent DateMarker of ms
      rcases e : ld with _ | key
      · exact absurd rfl (h1.1 e _ (getElem?_mem hig) d1)
      · obtain ⟨i', d', hig', hkey', haft'⟩ := h1.2 key e
        have hilt' : i' < ms.length := getElem?_lt hig'
        have hii : i = i' := by
          rcases lt_trichotomy i i' with hlt | heq | hgt
          · exact absurd rfl (hbet i' _ hlt (by omega)
              (by rw [List.getElem?_append_left hilt']; exact hig') d')
          · exact heq
          · exact absurd rfl (haft' i _ hgt hig d1)
        subst hii
        rw [hig'] at hig
        simp only [Option.some.injEq, ItemA.date.injEq] at hig
        subst hig
        intro hkk
        rw [e, hkey', hkk] at hne
        exact hne rfl

theorem dInvP_set {ld : Option Str} {ms : List ItemA} {i : Nat} {old new : ItemA}
    (h1 : LastDateP ld ms) (h2 : AdjP ms) (hg : ms[i]? = some old)
    (hold : ∀ d, old ≠ ItemA.date d) (hnew : ∀ d, new ≠ ItemA.date d) :
    LastDateP ld (ms.set i new) ∧ AdjP (ms.set i new) := by
  constructor
  · constructor
    · intro hld it hit d
      rcases List.mem_or_eq_of_mem_set hit with hit | hit
      · exact h1.1 hld it hit d
      · subst hit; exact hnew d
    · intro key hld
      obtain ⟨i', d', hig', hkey', haft'⟩ := h1.2 key hld
      have hii : i ≠ i' := by
        intro he
        subst he
        rw [hg] at hig'
        simp only [Option.some.injEq] at hig'
        exact absurd hig' (hold d')
      refine ⟨i', d', by rw [List.getElem?_set_ne hii]; exact hig', hkey', ?_⟩
      intro k it hk hkg dd
      by_cases hki : i = k
      · subst hki
        rw [getElem?_set_self hg _] at hkg
        simp only [Option.some.injEq] at hkg
        subst hkg
        exact hnew dd
      · rw [List.getElem?_set_ne hki] at hkg
        exact haft' k it hk hkg dd
  · intro i1 j1 d1 d2 hij hig hjg hbet
    have hii1 : i ≠ i1 := by
      intro he
      subst he
      rw [getElem?_set_self hg _] at hig
      simp only [Option.some.injEq] at hig
      exact absurd hig (hnew d1)
    have hij1 : i ≠ j1 := by
      intro he
      subst he
      rw [getElem?_set_self hg _] at hjg
      simp only [Option.some.injEq] at hjg
      exact absurd hjg (hnew d2)
    rw [List.getElem?_set_ne hii1] at hig
    rw [List.getElem?_set_ne hij1] at hjg
    refine h2 i1 j1 d1 d2 hij hig hjg ?_
    intro k it hk1 hk2 hkg dd
    by_cases hki : i = k
    · subst hki
      rw [hg] at hkg
      simp only [Option.some.injEq] at hkg
      subst hkg
      exact hold dd
    · exact hbet k it hk1 hk2 (by rw [List.getElem?_set_ne hki]; exact hkg) dd

theorem dInv_step (s : StateA) (line : Str) (h : DInv s) : DInv (stepA s line) := by
  obtain ⟨hld, hadj⟩ := h
  rcases stepA_cases s line with hs | hs | ⟨hne, hs⟩ | ⟨m, hm, hs⟩ |
    ⟨i, u, c, t, ft, ic, hi, hg, hs⟩
  · rw [hs]; exact ⟨hld, hadj⟩
  · rw [hs]
    exact dInvP_append_nondate hld hadj (fun d he => by cases he)
  · rw [hs]
    exact dInvP_append_date hld hadj hne
  · rw [hs, msgBranchA_eq]
    have hstep1 : LastDateP (msgDateA s m.fullTimestamp).lastDate
        (msgDateA s m.fullTimestamp).messages ∧
        AdjP (msgDateA s m.fullTimestamp).messages := by
      rcases msgDateA_cases s m.fullTimestamp with he | ⟨hne, he⟩
      · rw [he]; exact ⟨hld, hadj⟩
      · rw [he]; exact dInvP_append_date hld hadj hne
    exact dInvP_append_nondate hstep1.1 hstep1.2 (fun d he => by cases he)
  · rw [hs]
    exact dInvP_set hld hadj hg (fun d he => by cases he) (fun d he => by cases he)

theorem dInv_init : DInv initA := by
  refine ⟨⟨?_, ?_⟩, ?_⟩
  · intro _ it hit d
    simp [initA] at hit
  · intro key hk
    simp [initA] at hk
  · intro i j d1 d2 hij hig
    simp [initA] at hig

theorem dInv_parseChatA (txt : String) : AdjP (parseChatA txt).messages :=
  (foldl_preserve dInv_step ((linesOf txt).drop 3) initA dInv_init).2

/-- Input for the second, concrete part of claim C4: two consecutive
date-only header lines with the same calendar date. -/
def exC4 : String := "T\nS\n\n2024년 1월 1일 오전 9:00\n2024년 1월 1일 오후 3:00"

/-- Input for the witness of claim C4's first part: two date-only header
lines with different calendar dates, yielding two adjacent DateMarkers. -/
def exC4b : String := "T\nS\n\n2024년 1월 1일 오전 9:00\n2024년 1월 2일 오전 9:00"

/-- Claim C4: any two DateMarkers that are adjacent in the subsequence of
emitted DateMarkers carry different logical calendar dates, and two
consecutive date-only header lines with the same calendar date produce
exactly one DateMarker. -/
theorem c4_dateDedup :
    (∀ (txt : String) (i j : Nat) (d1 d2 : Str), i < j →
      (parseChatA txt).messages[i]? = some (ItemA.date d1) →
      (parseChatA txt).messages[j]? = some (ItemA.date d2) →
      (∀ (k : Nat) (it : ItemA), i < k → k < j →
        (parseChatA txt).messages[k]? = some it → ∀ d', it ≠ ItemA.date d') →
      logicalDate d1 ≠ logicalDate d2) ∧
    (parseChatA exC4).messages = [ItemA.date "2024년 1월 1일 오전 9:00".data] := by
  constructor
  · intro txt i j d1 d2 hij hig hjg hbet heq
    exact dInv_parseChatA txt i j d1 d2 hij hig hjg hbet
      (by rw [dateKey, dateKey, heq])
  · decide

/-- Witness for C4's first part at a concrete input with two adjacent
DateMarkers. -/
theorem c4_witness :
    logicalDate "2024년 1월 1일 오전 9:00".data ≠
      logicalDate "2024년 1월 2일 오전 9:00".data :=
  c4_dateDedup.1 exC4b 0 1 "2024년 1월 1일 오전 9:00".data
    "2024년 1월 2일 오전 9:00".data (by omega) (by decide) (by decide)
    (fun k it hk1 hk2 _ => absurd hk2 (by omega))

/-! ### Claim C5: continuation-fallback absorption -/

/-- Claim C5: a non-empty line matching none of the deletion-marker,
date-only-header, or message patterns, processed while the current-message
tracker holds a Message, is appended to that Message's body separated by a
single newline, and no new item is added to the output list. -/
theorem c5_absorption (s : StateA) (line : Str) (i : Nat) (u c t ft : Str) (ic : Bool)
    (h0 : line ≠ []) (h1 : line ≠ deletedMsg) (h2 : isDateHeader line = false)
    (h3 : matchMessage line = none) (h4 : s.lastMessage = some i)
    (h5 : s.messages[i]? = some (ItemA.message u c t ft ic)) :
    stepA s line =
      { s with messages := s.messages.set i (ItemA.message u (c ++ '\n' :: line) t ft ic) } ∧
    (stepA s line).messages.length = s.messages.length := by
  have hstep := stepA_fb h0 h1 h2 h3 s
  have hfb : fallbackA s line =
      { s with messages := s.messages.set i (ItemA.message u (c ++ '\n' :: line) t ft ic) } := by
    unfold fallbackA
    simp only [h4, h5]
  refine ⟨hstep.trans hfb, ?_⟩
  rw [hstep, hfb]
  simp [List.length_set]

/-- Concrete state for the C5 and C6 witnesses: one emitted message,
tracked as the current message. -/
def exC5state : StateA :=
  ⟨[ItemA.message "A".data "hello".data "오전 9:00".data
      "2024년 1월 1일 오전 9:00".data false],
   ["A".data], some 0, none⟩

/-- Witness for C5 at a concrete state and line. -/
theorem c5_witness :
    stepA exC5state "stray".data =
      { exC5state with
          messages := exC5state.messages.set 0
            (ItemA.message "A".data ("hello".data ++ '\n' :: "stray".data) "오전 9:00".data
              "2024년 1월 1일 오전 9:00".data false) } ∧
    (stepA exC5state "stray".data).messages.length = exC5state.messages.length :=
  c5_absorption exC5state "stray".data 0 "A".data "hello".data "오전 9:00".data
    "2024년 1월 1일 오전 9:00".data false (by decide) (by decide) (by decide)
    (by decide) rfl rfl

/-! ### Claim C6: the deletion marker emits a SystemNotice and freezes
earlier items -/

theorem frozen_step (n : Nat) (s0 : StateA) :
    ∀ (s : StateA) (line : Str),
      ((s.lastMessage = none ∨ ∃ k, s.lastMessage = some k ∧ n ≤ k) ∧
       n ≤ s.messages.length ∧
       ∀ j : Nat, j < n → s.messages[j]? = s0.messages[j]?) →
      ((stepA s line).lastMessage = none ∨
        ∃ k, (stepA s line).lastMessage = some k ∧ n ≤ k) ∧
      n ≤ (stepA s line).messages.length ∧
      ∀ j : Nat, j < n → (stepA s line).messages[j]? = s0.messages[j]? := by
  intro s line h
  obtain ⟨htr, hlen, hpre⟩ := h
  rcases stepA_cases s line with hs | hs | ⟨hne, hs⟩ | ⟨m, hm, hs⟩ |
    ⟨i, u, c, t, ft, ic, hi, hg, hs⟩ <;> rw [hs]
  · exact ⟨htr, hlen, hpre⟩
  · refine ⟨Or.inl rfl, by simp only [List.length_append]; omega, ?_⟩
    intro j hj
    rw [List.getElem?_append_left (by omega)]
    exact hpre j hj
  · refine ⟨Or.inl rfl, by simp only [List.length_append]; omega, ?_⟩
    intro j hj
    rw [List.getElem?_append_left (by omega)]
    exact hpre j hj
  · rw [msgBranchA_eq]
    obtain ⟨tail, htail, -, -, -⟩ := msgDateA_parts s m.fullTimestamp
    rw [htail]
    have hlen2 : s.messages.length ≤ (s.messages ++ tail).length := by simp
    refine ⟨Or.inr ⟨(s.messages ++ tail).length, rfl, by omega⟩, ?_, ?_⟩
    · simp only [List.length_append]
      omega
    · intro j hj
      rw [List.getElem?_append_left (by simp only [List.length_append]; omega),
        List.getElem?_append_left (by omega)]
      exact hpre j hj
  · have hin : n ≤ i := by
      rcases htr with htr | ⟨k, hk, hnk⟩
      · rw [htr] at hi; cases hi
      · rw [hk] at hi
        have : k = i := Option.some.inj hi
        omega
    refine ⟨?_, by simp only [List.length_set]; omega, ?_⟩
    · rcases htr with htr | ⟨k, hk, hnk⟩
      · exact Or.inl htr
      · exact Or.inr ⟨k, hk, hnk⟩
    · intro j hj
      rw [List.getElem?_set_ne (by omega)]
      exact hpre j hj

/-- Claim C6: processing the deletion-marker line pushes a SystemNotice
carrying the sentinel text and resets the current-message tracker, and as a
consequence every already-emitted item (in particular the body of the
pre-marker message) is unchanged by the processing of all following lines. -/
theorem c6_deletionMarker (s : StateA) :
    (stepA s deletedMsg).messages = s.messages ++ [ItemA.system deletedMsg] ∧
    (stepA s deletedMsg).lastMessage = none ∧
    ∀ (rest : List Str) (j : Nat), j < (stepA s deletedMsg).messages.length →
      (rest.foldl stepA (stepA s deletedMsg)).messages[j]? =
        (stepA s deletedMsg).messages[j]? := by
  rw [stepA_deleted s]
  refine ⟨rfl, rfl, ?_⟩
  intro rest j hj
  exact (foldl_preserve (frozen_step (s.messages ++ [ItemA.system deletedMsg]).length
      { s with messages := s.messages ++ [ItemA.system deletedMsg], lastMessage := none })
    rest _ ⟨Or.inl rfl, le_refl _, fun _ _ => rfl⟩).2.2 j hj

/-- Witness for C6: after the deletion marker, a following stray line does
not modify the pre-marker message. -/
theorem c6_witness :
    (List.foldl stepA (stepA exC5state deletedMsg) ["stray".data]).messages[0]? =
      (stepA exC5state deletedMsg).messages[0]? :=
  (c6_deletionMarker exC5state).2.2 ["stray".data] 0 (by decide)

/-! ### Claim C7: short inputs and the default title -/

/-- Claim C7: an input with fewer than four lines produces an empty item
list, and an input whose first line is blank gets the placeholder title. -/
theorem c7_shortInput (txt : String) :
    ((linesOf txt).length < 4 → (parseChatA txt).messages = []) ∧
    (∀ (l : Str) (ls : List Str), linesOf txt = l :: ls → l = [] →
      (parseChatA txt).title = defaultTitle) := by
  constructor
  · intro hlen
    have hdrop : (linesOf txt).drop 3 = [] := List.drop_eq_nil_iff_le.mpr (by omega)
    show (((linesOf txt).drop 3).foldl stepA initA).messages = []
    rw [hdrop]
    rfl
  · intro l ls hll hl
    show (match linesOf txt with
      | [] => defaultTitle
      | l :: _ => if l = [] then defaultTitle else l) = defaultTitle
    rw [hll]
    simp [hl]

/-- Witness for C7 at concrete inputs: a two-line input yields no items, and
an input with a blank first line gets the placeholder title. -/
theorem c7_witness :
    (parseChatA "a\nb").messages = [] ∧
    (parseChatA "\na\nb\nc").title = defaultTitle :=
  ⟨(c7_shortInput "a\nb").1 (by decide),
   (c7_shortInput "\na\nb\nc").2 [] ["a".data, "b".data, "c".data] (by decide) rfl⟩

/-! ### Claim C8: the speakers list -/

/-- The speaker of a Message item. -/
def speakerOf : ItemA → Option Str
  | ItemA.message u _ _ _ _ => some u
  | _ => none

/-- The speakers of the Message items of an item list, in order. -/
def speakersOf (ms : List ItemA) : List Str := ms.filterMap speakerOf

/-- First-seen-order deduplication, as performed by an insertion-ordered
set. -/
def firstSeen (xs : List Str) : List Str := xs.foldl addUser []

theorem addUser_mem {us : List Str} {u x : Str} : x ∈ addUser us u ↔ x ∈ us ∨ x = u := by
  unfold addUser
  split
  · next h =>
    constructor
    · exact Or.inl
    · rintro (hx | rfl)
      · exact hx
      · exact h
  · next h => simp [List.mem_append]

theorem foldl_addUser_mem (xs : List Str) :
    ∀ (acc : List Str) (x : Str), x ∈ xs.foldl addUser acc ↔ x ∈ acc ∨ x ∈ xs := by
  induction xs with
  | nil => intro acc x; simp
  | cons a xs ih =>
    intro acc x
    rw [List.foldl_cons, ih, addUser_mem, List.mem_cons]
    tauto

theorem addUser_nodup {us : List Str} (h : us.Nodup) (u : Str) : (addUser us u).Nodup := by
  unfold addUser
  split
  · exact h
  · next hmem =>
    rw [List.nodup_append]
    refine ⟨h, List.nodup_singleton u, ?_⟩
    intro a ha hb
    simp only [List.mem_singleton] at hb
    subst hb
    exact hmem ha

theorem foldl_addUser_nodup (xs : List Str) :
    ∀ acc : List Str, acc.Nodup → (xs.foldl addUser acc).Nodup := by
  induction xs with
  | nil => intro acc h; exact h
  | cons a xs ih => intro acc h; exact ih _ (addUser_nodup h a)

theorem filterMap_set_eq {α β : Type} {f : α → Option β} {ms : List α} {i : Nat} {a b : α}
    (hg : ms[i]? = some a) (hf : f a = f b) :
    (ms.set i b).filterMap f = ms.filterMap f := by
  induction ms generalizing i with
  | nil => simp at hg
  | cons x xs ih =>
    cases i with
    | zero =>
      simp only [List.getElem?_cons_zero, Option.some.injEq] at hg
      subst hg
      simp [List.filterMap_cons, hf]
    | succ n =>
      simp only [List.getElem?_cons_succ] at hg
      simp [List.filterMap_cons, ih hg]

theorem speakersOf_append_none {ms tail : List ItemA}
    (h : ∀ it ∈ tail, speakerOf it = none) :
    speakersOf (ms ++ tail) = speakersOf ms := by
  unfold speakersOf
  rw [List.filterMap_append]
  have h0 : tail.filterMap speakerOf = [] := by
    rw [List.filterMap_eq_nil]
    exact h
  rw [h0, List.append_nil]

theorem speakersOf_push_msg (ms : List ItemA) (u c t ft : Str) (ic : Bool) :
    speakersOf (ms ++ [ItemA.message u c t ft ic]) = speakersOf ms ++ [u] := by
  unfold speakersOf
  rw [List.filterMap_append]
  rfl

theorem firstSeen_push (xs : List Str) (u : Str) :
    firstSeen (xs ++ [u]) = addUser (firstSeen xs) u := by
  unfold firstSeen
  rw [List.foldl_append]
  rfl

/-- Speaker-set invariant: the users list is the first-seen deduplication of
the speakers of the emitted messages. -/
def UInv (s : StateA) : Prop := s.users = firstSeen (speakersOf s.messages)

theorem uInv_step (s : StateA) (line : Str) (h : UInv s) : UInv (stepA s line) := by
  unfold UInv at h ⊢
  rcases stepA_cases s line with hs | hs | ⟨hne, hs⟩ | ⟨m, hm, hs⟩ |
    ⟨i, u, c, t, ft, ic, hi, hg, hs⟩ <;> rw [hs]
  · exact h
  · show s.users = firstSeen (speakersOf (s.messages ++ [ItemA.system deletedMsg]))
    have hnone : ∀ it ∈ [ItemA.system deletedMsg], speakerOf it = none := by
      intro it hit
      simp only [List.mem_singleton] at hit
      subst hit
      rfl
    rw [speakersOf_append_none hnone]
    exact h
  · show s.users = firstSeen (speakersOf (s.messages ++ [ItemA.date line]))
    have hnone : ∀ it ∈ [ItemA.date line], speakerOf it = none := by
      intro it hit
      simp only [List.mem_singleton] at hit
      subst hit
      rfl
    rw [speakersOf_append_none hnone]
    exact h
  · rw [msgBranchA_eq]
    obtain ⟨tail, htail, htaildate, -, hus1⟩ := msgDateA_parts s m.fullTimestamp
    show addUser (msgDateA s m.fullTimestamp).users (trimChars m.userName) =
      firstSeen (speakersOf ((msgDateA s m.fullTimestamp).messages ++
        [ItemA.message (trimChars m.userName) (trimChars m.content)
          (parseTimestampToDisplayTime m.fullTimestamp) m.fullTimestamp (contFlagA s m)]))
    have hnone : ∀ it ∈ tail, speakerOf it = none := by
      intro it hit
      obtain ⟨d, hd⟩ := htaildate it hit
      subst hd
      rfl
    rw [htail, hus1, speakersOf_push_msg, speakersOf_append_none hnone,
      firstSeen_push, h]
  · show s.users =
      firstSeen (speakersOf (s.messages.set i (ItemA.message u (c ++ '\n' :: line) t ft ic)))
    unfold speakersOf
    rw [filterMap_set_eq hg (show speakerOf (ItemA.message u c t ft ic) =
      speakerOf (ItemA.message u (c ++ '\n' :: line) t ft ic) from rfl)]
    exact h

/-- Claim C8: the speakers list returned by `parseChatA` is the first-seen
deduplication of the trimmed speaker names of the emitted Message items: it
has no duplicates, contains exactly the speakers of the emitted messages,
and lists them in first-seen order. -/
theorem c8_speakers (txt : String) :
    (parseChatA txt).users = firstSeen (speakersOf (parseChatA txt).messages) ∧
    (parseChatA txt).users.Nodup ∧
    ∀ x : Str, x ∈ (parseChatA txt).users ↔ x ∈ speakersOf (parseChatA txt).messages := by
  have h : UInv (((linesOf txt).drop 3).foldl stepA initA) :=
    foldl_preserve uInv_step ((linesOf txt).drop 3) initA rfl
  unfold UInv at h
  refine ⟨h, ?_, ?_⟩
  · rw [show (parseChatA txt).users = (((linesOf txt).drop 3).foldl stepA initA).users from rfl,
      h]
    exact foldl_addUser_nodup _ _ List.nodup_nil
  · intro x
    rw [show (parseChatA txt).users = (((linesOf txt).drop 3).foldl stepA initA).users from rfl,
      h, show (parseChatA txt).messages =
        (((linesOf txt).drop 3).foldl stepA initA).messages from rfl]
    unfold firstSeen
    rw [foldl_addUser_mem]
    simp

/-! ### Claim C9: totality and graceful degradation -/

theorem stepA_len (s : StateA) (line : Str) :
    (stepA s line).messages.length ≤ s.messages.length + 2 := by
  rcases stepA_cases s line with hs | hs | ⟨hne, hs⟩ | ⟨m, hm, hs⟩ |
    ⟨i, u, c, t, ft, ic, hi, hg, hs⟩ <;> rw [hs]
  · omega
  · simp only [List.length_append, List.length_cons, List.length_nil]; omega
  · simp only [List.length_append, List.length_cons, List.length_nil]; omega
  · rw [msgBranchA_eq]
    rcases msgDateA_cases s m.fullTimestamp with he | ⟨-, he⟩ <;> rw [he] <;>
      simp only [List.length_append, List.length_cons, List.length_nil] <;> omega
  · simp only [List.length_set]; omega

theorem foldl_stepA_len (L : List Str) :
    ∀ s : StateA, (L.foldl stepA s).messages.length ≤ s.messages.length + 2 * L.length := by
  induction L with
  | nil => intro s; simp
  | cons l L ih =>
    intro s
    have h1 := ih (stepA s l)
    have h2 := stepA_len s l
    simp only [List.foldl_cons, List.length_cons]
    omega

/-- Claim C9: `parseChatA` is a total function whose output item list is
linearly bounded by the number of input lines (each line adds at most two
items), and a line recognized by none of the three patterns adds no item to
the output: it is either absorbed into the current message's body or
dropped. -/
theorem c9_total :
    (∀ txt : String, (parseChatA txt).messages.length ≤ 2 * (linesOf txt).length) ∧
    (∀ (s : StateA) (line : Str), line ≠ deletedMsg → isDateHeader line = false →
      matchMessage line = none →
      (stepA s line).messages.length = s.messages.length) := by
  constructor
  · intro txt
    have h1 := foldl_stepA_len ((linesOf txt).drop 3) initA
    have h2 : ((linesOf txt).drop 3).length ≤ (linesOf txt).length := by
      rw [List.length_drop]
      omega
    have h0 : (parseChatA txt).messages.length =
        (((linesOf txt).drop 3).foldl stepA initA).messages.length := rfl
    rw [h0]
    have h3 : initA.messages.length = 0 := rfl
    omega
  · intro s line h1 h2 h3
    by_cases h0 : line = []
    · subst h0
      rw [stepA_empty]
    · rw [stepA_fb h0 h1 h2 h3 s]
      rcases fallbackA_cases s line with hf | ⟨i, u, c, t, ft, ic, hi, hg, hf⟩
      · rw [hf]
      · rw [hf]
        simp [List.length_set]

/-- Witness for C9's second conjunct at a concrete state and line. -/
theorem c9_witness : (stepA initA "stray".data).messages.length = initA.messages.length :=
  c9_total.2 initA "stray".data (by decide) (by decide) (by decide)

/-! ### Claim C10: emitted messages always carry a non-empty display
timestamp -/

/-- Timestamp invariant: every Message in the list has a non-empty display
timestamp. -/
def TsNePred (ms : List ItemA) : Prop :=
  ∀ (u c t ft : Str) (ic : Bool), ItemA.message u c t ft ic ∈ ms → t ≠ []

theorem tsNe_step (s : StateA) (line : Str) (h : TsNePred s.messages) :
    TsNePred (stepA s line).messages := by
  rcases stepA_cases s line with hs | hs | ⟨hne, hs⟩ | ⟨m, hm, hs⟩ |
    ⟨i, u, c, t, ft, ic, hi, hg, hs⟩ <;> rw [hs]
  · exact h
  · intro u c t ft ic hmem
    rcases List.mem_append.mp hmem with hmem | hmem
    · exact h u c t ft ic hmem
    · simp at hmem
  · intro u c t ft ic hmem
    rcases List.mem_append.mp hmem with hmem | hmem
    · exact h u c t ft ic hmem
    · simp at hmem
  · rw [msgBranchA_eq]
    obtain ⟨tail, htail, htaildate, -, -⟩ := msgDateA_parts s m.fullTimestamp
    rw [htail]
    intro u c t ft ic hmem
    rcases List.mem_append.mp hmem with hmem | hmem
    · rcases List.mem_append.mp hmem with hmem | hmem
      · exact h u c t ft ic hmem
      · obtain ⟨d, hd⟩ := htaildate _ hmem
        simp at hd
    · simp only [List.mem_singleton, ItemA.message.injEq] at hmem
      obtain ⟨-, -, ht, -, -⟩ := hmem
      rw [ht]
      exact displayTime_msg hm
  · intro u' c' t' ft' ic' hmem
    rcases List.mem_or_eq_of_mem_set hmem with hmem | hmem
    · exact h u' c' t' ft' ic' hmem
    · simp only [ItemA.message.injEq] at hmem
      obtain ⟨-, -, ht, -, -⟩ := hmem
      rw [ht]
      exact h u c t ft ic (getElem?_mem hg)

/-- Claim C10: every Message item emitted by `parseChatA` has a non-empty
display timestamp, because any line matching the message pattern contains
an am/pm hour-minute substring that the display-time extraction always
finds. -/
theorem c10_timestamps (txt : String) (u c t ft : Str) (ic : Bool)
    (h : ItemA.message u c t ft ic ∈ (parseChatA txt).messages) : t ≠ [] := by
  have hinit : TsNePred initA.messages := by
    intro u' c' t' ft' ic' hmem
    simp [initA] at hmem
  have hinv : TsNePred (((linesOf txt).drop 3).foldl stepA initA).messages :=
    @foldl_preserve StateA stepA (fun st => TsNePred st.messages) tsNe_step
      ((linesOf txt).drop 3) initA hinit
  exact hinv u c t ft ic h

/-- Witness for C10 at a concrete input. -/
theorem c10_witness : "오전 9:00".data ≠ ([] : Str) :=
  c10_timestamps "T\nS\n\n2024년 1월 1일 오전 9:00, A : hello" "A".data "hello".data
    "오전 9:00".data "2024년 1월 1일 오전 9:00".data false (by decide)

/-! ### Claim C3: the two variants agree up to DateMarker payloads -/

/-- The item correspondence between the two variants: same variant kind at
each position; Message fields (speaker, body, display timestamp,
continuation flag) and SystemNotice content identical; a DateMarker of
variant B carries the weekday-annotated dedup key of the raw payload the
DateMarker of variant A carries at the same position. -/
def itemRel : ItemA → ItemB → Prop
  | ItemA.message u c t _ ic, ItemB.message u' c' t' ic' =>
    u = u' ∧ c = c' ∧ t = t' ∧ ic = ic'
  | ItemA.date da, ItemB.date db => db = dateKey da
  | ItemA.system ca, ItemB.system cb => ca = cb
  | _, _ => False

/-- The simulation relation between the loop states of the two variants. -/
def StateRel (sa : StateA) (sb : StateB) : Prop :=
  List.Forall₂ itemRel sa.messages sb.messages ∧
  sa.users = sb.users ∧ sa.lastMessage = sb.lastMessage ∧ sa.lastDate = sb.lastDate

theorem forall₂_append {α β : Type} {R : α → β → Prop} {l₁ u₁ : List α} {l₂ u₂ : List β}
    (h : List.Forall₂ R l₁ l₂) (h2 : List.Forall₂ R u₁ u₂) :
    List.Forall₂ R (l₁ ++ u₁) (l₂ ++ u₂) :=
  List.rel_append h h2

theorem forall₂_get {α β : Type} {R : α → β → Prop} {l : List α} {l' : List β}
    (h : List.Forall₂ R l l') :
    ∀ (i : Nat) (a : α), l[i]? = some a → ∃ b, l'[i]? = some b ∧ R a b := by
  induction h with
  | nil => intro i a ha; simp at ha
  | @cons x y xs ys hr hrest ih =>
    intro i a ha
    cases i with
    | zero =>
      simp only [List.getElem?_cons_zero, Option.some.injEq] at ha
      subst ha
      exact ⟨y, by simp, hr⟩
    | succ n =>
      simp only [List.getElem?_cons_succ] at ha ⊢
      exact ih n a ha

theorem forall₂_get_none {α β : Type} {R : α → β → Prop} {l : List α} {l' : List β}
    (h : List.Forall₂ R l l') {i : Nat} (hn : l[i]? = none) : l'[i]? = none := by
  apply List.getElem?_eq_none
  rw [← h.length_eq]
  by_contra hlt
  push_neg at hlt
  rw [List.getElem?_eq_getElem hlt] at hn
  cases hn

theorem forall₂_set {α β : Type} {R : α → β → Prop} {l : List α} {l' : List β}
    (h : List.Forall₂ R l l') {a : α} {b : β} (hab : R a b) :
    ∀ i : Nat, List.Forall₂ R (l.set i a) (l'.set i b) := by
  induction h with
  | nil => intro i; exact List.Forall₂.nil
  | @cons x y xs ys hr hrest ih =>
    intro i
    cases i with
    | zero => exact List.Forall₂.cons hab hrest
    | succ n => exact List.Forall₂.cons hr (ih n)

theorem current_rel {sa : StateA} {sb : StateB} (h : StateRel sa sb) :
    (sa.lastMessage = none ∧ sb.lastMessage = none) ∨
    (∃ i : Nat, sa.lastMessage = some i ∧ sb.lastMessage = some i ∧
      ((sa.messages[i]? = none ∧ sb.messages[i]? = none) ∨
       (∃ ita itb, sa.messages[i]? = some ita ∧ sb.messages[i]? = some itb ∧
         itemRel ita itb))) := by
  obtain ⟨hms, hus, hlm, hld⟩ := h
  rcases e0 : sa.lastMessage with _ | i
  · exact Or.inl ⟨rfl, hlm ▸ e0⟩
  · refine Or.inr ⟨i, rfl, hlm ▸ e0, ?_⟩
    rcases e1 : sa.messages[i]? with _ | ita
    · exact Or.inl ⟨rfl, forall₂_get_none hms e1⟩
    · obtain ⟨itb, e1b, hrel⟩ := forall₂_get hms i ita e1
      exact Or.inr ⟨ita, itb, rfl, e1b, hrel⟩

theorem contFlag_rel {sa : StateA} {sb : StateB} (h : StateRel sa sb) (m : MsgMatch) :
    contFlagA sa m = contFlagB sb m := by
  unfold contFlagA contFlagB currentA currentB
  rcases current_rel h with ⟨ea, eb⟩ | ⟨i, ea, eb, hin⟩
  · rw [ea, eb]
  · rcases hin with ⟨e1, e1b⟩ | ⟨ita, itb, e1, e1b, hrel⟩
    · simp only [ea, eb, e1, e1b]
    · cases ita with
      | message u c t ft ic =>
        cases itb with
        | message u' c' t' ic' =>
          obtain ⟨hu, hc, ht, hic⟩ := hrel
          simp only [ea, eb, e1, e1b, hu, ht]
        | date d => exact absurd hrel (by simp [itemRel])
        | system c' => exact absurd hrel (by simp [itemRel])
      | date d =>
        cases itb with
        | message u' c' t' ic' => exact absurd hrel (by simp [itemRel])
        | date d' => simp only [ea, eb, e1, e1b]
        | system c' => exact absurd hrel (by simp [itemRel])
      | system c =>
        cases itb with
        | message u' c' t' ic' => exact absurd hrel (by simp [itemRel])
        | date d' => exact absurd hrel (by simp [itemRel])
        | system c' => simp only [ea, eb, e1, e1b]

theorem fallbackRel {sa : StateA} {sb : StateB} (h : StateRel sa sb) (line : Str) :
    StateRel (fallbackA sa line) (fallbackB sb line) := by
  have hcopy := h
  obtain ⟨hms, hus, hlm, hld⟩ := hcopy
  unfold fallbackA fallbackB
  rcases current_rel h with ⟨ea, eb⟩ | ⟨i, ea, eb, hin⟩
  · rw [ea, eb]
    exact ⟨hms, hus, hlm, hld⟩
  · rcases hin with ⟨e1, e1b⟩ | ⟨ita, itb, e1, e1b, hrel⟩
    · simp only [ea, eb, e1, e1b]
      exact ⟨hms, hus, hlm, hld⟩
    · cases ita with
      | message u c t ft ic =>
        cases itb with
        | message u' c' t' ic' =>
          obtain ⟨hu, hc, ht, hic⟩ := hrel
          subst hu; subst hc; subst ht; subst hic
          simp only [ea, eb, e1, e1b]
          refine ⟨?_, hus, rfl, hld⟩
          exact forall₂_set hms
            (show itemRel (ItemA.message u (c ++ '\n' :: line) t ft ic)
              (ItemB.message u (c ++ '\n' :: line) t ic) from ⟨rfl, rfl, rfl, rfl⟩) i
        | date d => exact absurd hrel (by simp [itemRel])
        | system c' => exact absurd hrel (by simp [itemRel])
      | date d =>
        cases itb with
        | message u' c' t' ic' => exact absurd hrel (by simp [itemRel])
        | date d' =>
          simp only [ea, eb, e1, e1b]
          exact ⟨hms, hus, hlm, hld⟩
        | system c' => exact absurd hrel (by simp [itemRel])
      | system c =>
        cases itb with
        | message u' c' t' ic' => exact absurd hrel (by simp [itemRel])
        | date d' => exact absurd hrel (by simp [itemRel])
        | system c' =>
          simp only [ea, eb, e1, e1b]
          exact ⟨hms, hus, hlm, hld⟩

theorem msgDateRel {sa : StateA} {sb : StateB} (h : StateRel sa sb) (ft : Str) :
    StateRel (msgDateA sa ft) (msgDateB sb ft) := by
  obtain ⟨hms, hus, hlm, hld⟩ := h
  unfold msgDateA msgDateB
  rcases e : anchoredDate ft with _ | ⟨y, mo, d, r⟩
  · exact ⟨hms, hus, hlm, hld⟩
  · have hk : formatDateWithDay (datePartChars y mo d) = dateKey ft := by
      simp [dateKey, logicalDate, searchDate_of_anchored e]
    rw [← hld]
    by_cases hc : sa.lastDate = some (formatDateWithDay (datePartChars y mo d))
    · simp only [hc, if_true]
      exact ⟨hms, hus, hlm, hld⟩
    · simp only [hc, if_false]
      exact ⟨forall₂_append hms (List.Forall₂.cons (by rw [itemRel, hk]) List.Forall₂.nil),
        hus, hlm, rfl⟩

theorem msgBranchB_eq (s : StateB) (m : MsgMatch) :
    msgBranchB s m =
      { messages :=
          (msgDateB s m.fullTimestamp).messages ++
            [ItemB.message (trimChars m.userName) (trimChars m.content)
              (parseTimestampToDisplayTime m.fullTimestamp) (contFlagB s m)],
        users := addUser (msgDateB s m.fullTimestamp).users (trimChars m.userName),
        lastMessage := some (msgDateB s m.fullTimestamp).messages.length,
        lastDate := (msgDateB s m.fullTimestamp).lastDate } := rfl

theorem msgRel {sa : StateA} {sb : StateB} (h : StateRel sa sb) (m : MsgMatch) :
    StateRel (msgBranchA sa m) (msgBranchB sb m) := by
  have h1 := msgDateRel h m.fullTimestamp
  obtain ⟨hms1, hus1, hlm1, hld1⟩ := h1
  rw [msgBranchA_eq, msgBranchB_eq]
  refine ⟨?_, ?_, ?_, ?_⟩
  · refine forall₂_append hms1 (List.Forall₂.cons ?_ List.Forall₂.nil)
    exact show itemRel
      (ItemA.message (trimChars m.userName) (trimChars m.content)
        (parseTimestampToDisplayTime m.fullTimestamp) m.fullTimestamp (contFlagA sa m))
      (ItemB.message (trimChars m.userName) (trimChars m.content)
        (parseTimestampToDisplayTime m.fullTimestamp) (contFlagB sb m))
      from ⟨rfl, rfl, rfl, contFlag_rel h m⟩
  · show addUser (msgDateA sa m.fullTimestamp).users (trimChars m.userName) =
      addUser (msgDateB sb m.fullTimestamp).users (trimChars m.userName)
    rw [hus1]
  · show some (msgDateA sa m.fullTimestamp).messages.length =
      some (msgDateB sb m.fullTimestamp).messages.length
    rw [hms1.length_eq]
  · exact hld1

theorem dateRel {sa : StateA} {sb : StateB} (h : StateRel sa sb) {line : Str} {p : TsParts}
    (e : matchTs line = some (p, [])) :
    StateRel (dateBranchA sa line) (dateBranchB sb p) := by
  obtain ⟨hms, hus, hlm, hld⟩ := h
  obtain ⟨hline, hw⟩ := matchTs_eq_some e
  have hline' : line = tsChars p := by simpa using hline
  have hsd : searchDate line = some (p.year, p.month, p.day) := by
    have h0 := searchDate_ts hw []
    rw [tsChars_append_nil] at h0
    rw [hline']
    exact h0
  have hk : formatDateWithDay (datePartChars p.year p.month p.day) = dateKey line := by
    simp [dateKey, logicalDate, hsd]
  unfold dateBranchA dateBranchB
  simp only [hsd]
  rw [← hld]
  by_cases hc : sa.lastDate = some (formatDateWithDay (datePartChars p.year p.month p.day))
  · simp only [hc, if_true]
    exact ⟨hms, hus, hlm, hld⟩
  · simp only [hc, if_false]
    exact ⟨forall₂_append hms (List.Forall₂.cons (by rw [itemRel, hk]) List.Forall₂.nil),
      hus, rfl, rfl⟩

theorem stepRel {sa : StateA} {sb : StateB} (h : StateRel sa sb) (line : Str) :
    StateRel (stepA sa line) (stepB sb line) := by
  by_cases h0 : line = []
  · subst h0
    rw [stepA_empty, stepB_empty]
    exact h
  by_cases h1 : line = deletedMsg
  · subst h1
    obtain ⟨hms, hus, hlm, hld⟩ := h
    rw [stepA_deleted, stepB_deleted]
    exact ⟨forall₂_append hms (List.Forall₂.cons rfl List.Forall₂.nil), hus, rfl, hld⟩
  rcases e : matchTs line with _ | ⟨p, r⟩
  · have hd := isDateHeader_false_of_matchTs_none e
    rcases em : matchMessage line with _ | m
    · rw [stepA_fb h0 h1 hd em, stepB_fb h0 h1 hd em]
      exact fallbackRel h line
    · rw [stepA_msg hd em, stepB_msg hd em]
      exact msgRel h m
  · cases r with
    | nil =>
      rw [stepA_date e, stepB_date e]
      exact dateRel h e
    | cons a as =>
      have hd := isDateHeader_false_of_rest_cons e
      rcases em : matchMessage line with _ | m
      · rw [stepA_fb h0 h1 hd em, stepB_fb h0 h1 hd em]
        exact fallbackRel h line
      · rw [stepA_msg hd em, stepB_msg hd em]
        exact msgRel h m

theorem foldRel (L : List Str) :
    ∀ {sa : StateA} {sb : StateB}, StateRel sa sb →
      StateRel (L.foldl stepA sa) (L.foldl stepB sb) := by
  induction L with
  | nil => intro sa sb h; exact h
  | cons l L ih => intro sa sb h; exact ih (stepRel h l)

/-- Claim C3: on every input the two variant implementations produce item
lists of equal length with the same variant kind at each position,
identical Message fields (speaker, body, display timestamp, continuation
flag) and identical SystemNotice content, and identical speakers list and
title; they differ only in the DateMarker payloads, where variant A carries
the raw timestamp text and variant B its weekday-annotated date string (the
relation `itemRel` sends each A payload to its weekday-formatted date
key). -/
theorem c3_equivalence (txt : String) :
    (parseChatA txt).messages.length = (parseChatB txt).messages.length ∧
    List.Forall₂ itemRel (parseChatA txt).messages (parseChatB txt).messages ∧
    (parseChatA txt).users = (parseChatB txt).users ∧
    (parseChatA txt).title = (parseChatB txt).title := by
  have h0 : StateRel initA initB := ⟨List.Forall₂.nil, rfl, rfl, rfl⟩
  have h := foldRel ((linesOf txt).drop 3) h0
  exact ⟨h.1.length_eq, h.1, h.2.1, rfl⟩

/-- Witness for C3 at a concrete input. -/
theorem c3_witness :
    (parseChatA "T\nS\n\n2024년 1월 1일 오전 9:00, A : hi").title =
      (parseChatB "T\nS\n\n2024년 1월 1일 오전 9:00, A : hi").title :=
  (c3_equivalence "T\nS\n\n2024년 1월 1일 오전 9:00, A : hi").2.2.2

/-- Witness for C8 at a concrete input. -/
theorem c8_witness :
    (parseChatA "T\nS\n\n2024년 1월 1일 오전 9:00, A : hi").users =
      firstSeen (speakersOf
        (parseChatA "T\nS\n\n2024년 1월 1일 오전 9:00, A : hi").messages) :=
  (c8_speakers "T\nS\n\n2024년 1월 1일 오전 9:00, A : hi").1

end ChatParser
